import Mathlib

set_option maxHeartbeats 1600000

/-!
# Verification of the vue-piano melody annotator core

This file embeds the data model and operations of the vue-piano repository
(a MIDI melody annotator with a note ↔ token codec) and proves the frozen
claims about it.  The frontend operations (`PianoRoll.vue`,
`App.vue`) are translated directly from the Vue sources.  The backend
(`backend/main.py`: quantizer, Skyline extractor, token encoder/decoder,
slicer) is not among the provided sources, so those components are modelled
from the specification, as indicated in each doc comment.

Times are modelled as rational numbers (the sources use floating point
doubles for seconds; all quantities occurring in the claims are exact in ℚ).
-/

/-- The fundamental entity of the data model: a note with identifier, start
and end time in seconds, MIDI pitch, velocity and the melody/accompaniment
voice tag (`is_melody`). -/
structure Note where
  id : ℕ
  start : ℚ
  end_ : ℚ
  pitch : ℕ
  velocity : ℕ
  is_melody : Bool
deriving DecidableEq, Repr

/-- Modelled from the spec: the backend quantizer (backend/main.py is not
among the provided sources).  `to_ticks(seconds, step_ms) = round(seconds *
1000 / step_ms)`; the fixed rounding mode is round-half-up
(`round x = ⌊x + 1/2⌋`). -/
def to_ticks (seconds : ℚ) (step_ms : ℚ) : ℤ :=
  round (seconds * 1000 / step_ms)

/-- Modelled from the spec: inverse quantization,
`to_seconds(ticks, step_ms) = ticks * step_ms / 1000`. -/
def to_seconds (ticks : ℤ) (step_ms : ℚ) : ℚ :=
  (ticks : ℚ) * step_ms / 1000

/-- C5: for every time `s` (seconds) and quantization step `q` (ms) with
`0 < q`, the quantization round trip `to_seconds (to_ticks s q) q` lies
within `q/2000` seconds of `s`. -/
theorem quantizer_error_bound (s q : ℚ) (hq : 0 < q) :
    |to_seconds (to_ticks s q) q - s| ≤ q / 2000 := by
  have hq' : q ≠ 0 := ne_of_gt hq
  have key : to_seconds (to_ticks s q) q - s
      = ((round (s * 1000 / q) : ℚ) - s * 1000 / q) * (q / 1000) := by
    unfold to_seconds to_ticks
    field_simp
    ring
  have h1 : |(round (s * 1000 / q) : ℚ) - s * 1000 / q| ≤ 1 / 2 := by
    rw [abs_sub_comm]
    exact abs_sub_round (s * 1000 / q)
  rw [key, abs_mul, abs_of_pos (show (0:ℚ) < q / 1000 by positivity)]
  calc |(round (s * 1000 / q) : ℚ) - s * 1000 / q| * (q / 1000)
      ≤ 1 / 2 * (q / 1000) := by
        exact mul_le_mul_of_nonneg_right h1 (by positivity)
    _ = q / 2000 := by ring

/-- Witness for `quantizer_error_bound` at `s = 1/3`, `q = 100`. -/
theorem quantizer_error_bound_witness :
    |to_seconds (to_ticks (1/3) 100) 100 - 1/3| ≤ (100 : ℚ) / 2000 :=
  quantizer_error_bound (1/3) 100 (by norm_num)

/-! ## Manual annotation operations (frontend, PianoRoll.vue)

These are direct translations of `toggleNoteMelody`, `setSelectedAsMelody`
and `setSelectedAsAccompaniment` from
`src/frontend/src/components/PianoRoll.vue`. -/

/-- `toggleNoteMelody` (PianoRoll.vue): maps over the notes; the note whose
`id` equals `noteId` gets its `is_melody` flag negated. -/
def toggleNoteMelody (notes : List Note) (noteId : ℕ) : List Note :=
  notes.map fun note =>
    if note.id = noteId then { note with is_melody := !note.is_melody } else note

/-- `setSelectedAsMelody` (PianoRoll.vue): every note whose `id` is in the
selection gets `is_melody := true`. -/
def setSelectedAsMelody (notes : List Note) (selectedNotes : List ℕ) : List Note :=
  notes.map fun note =>
    if selectedNotes.contains note.id then { note with is_melody := true } else note

/-- `setSelectedAsAccompaniment` (PianoRoll.vue): every note whose `id` is in
the selection gets `is_melody := false`. -/
def setSelectedAsAccompaniment (notes : List Note) (selectedNotes : List ℕ) : List Note :=
  notes.map fun note =>
    if selectedNotes.contains note.id then { note with is_melody := false } else note

/-- `a` agrees with `b` on every field except possibly `is_melody`. -/
def SameButMelody (a b : Note) : Prop :=
  a.id = b.id ∧ a.start = b.start ∧ a.end_ = b.end_ ∧
    a.pitch = b.pitch ∧ a.velocity = b.velocity

/-- One position of a mapped annotation list: the mapped note differs from
the original only in `is_melody`, and is unchanged when untargeted. -/
theorem annotation_map_frame (notes : List Note) (f : Note → Note) (P : Note → Prop)
    (hf : ∀ n, SameButMelody (f n) n) (hP : ∀ n, P n → f n = n)
    (i : ℕ) (h : i < notes.length) :
    ∃ a b, (notes.map f)[i]? = some a ∧ notes[i]? = some b ∧
      SameButMelody a b ∧ (P b → a = b) := by
  have hb : notes[i]? = some notes[i] := List.getElem?_eq_getElem h
  refine ⟨f notes[i], notes[i], ?_, hb, hf _, hP _⟩
  rw [List.getElem?_map, hb, Option.map_some']

/-- C10: every manual-annotation operation (toggle one note, set selection to
melody, set selection to accompaniment) preserves the list length, changes at
most the `is_melody` field of each note, and leaves untargeted notes
completely unchanged. -/
theorem annotation_frame_effect (notes : List Note) (noteId : ℕ) (sel : List ℕ) :
    ((toggleNoteMelody notes noteId).length = notes.length ∧
      ∀ i, i < notes.length →
        ∃ a b, (toggleNoteMelody notes noteId)[i]? = some a ∧ notes[i]? = some b ∧
          SameButMelody a b ∧ (b.id ≠ noteId → a = b))
    ∧ ((setSelectedAsMelody notes sel).length = notes.length ∧
      ∀ i, i < notes.length →
        ∃ a b, (setSelectedAsMelody notes sel)[i]? = some a ∧ notes[i]? = some b ∧
          SameButMelody a b ∧ (sel.contains b.id = false → a = b))
    ∧ ((setSelectedAsAccompaniment notes sel).length = notes.length ∧
      ∀ i, i < notes.length →
        ∃ a b, (setSelectedAsAccompaniment notes sel)[i]? = some a ∧ notes[i]? = some b ∧
          SameButMelody a b ∧ (sel.contains b.id = false → a = b)) := by
  refine ⟨⟨List.length_map _ _, fun i h => ?_⟩,
         ⟨List.length_map _ _, fun i h => ?_⟩,
         ⟨List.length_map _ _, fun i h => ?_⟩⟩
  · exact annotation_map_frame notes _ (fun b => b.id ≠ noteId)
      (fun n => by by_cases hc : n.id = noteId <;> simp [hc, SameButMelody])
      (fun n hn => by
        have hn' : n.id ≠ noteId := hn
        simp [hn']) i h
  · exact annotation_map_frame notes _ (fun b => sel.contains b.id = false)
      (fun n => by by_cases hc : n.id ∈ sel <;> simp [hc, SameButMelody])
      (fun n hn => by
        have hn' : ¬ n.id ∈ sel := by simpa using hn
        simp [hn']) i h
  · exact annotation_map_frame notes _ (fun b => sel.contains b.id = false)
      (fun n => by by_cases hc : n.id ∈ sel <;> simp [hc, SameButMelody])
      (fun n hn => by
        have hn' : ¬ n.id ∈ sel := by simpa using hn
        simp [hn']) i h

/-- Witness for `annotation_frame_effect` on a concrete two-note list. -/
theorem annotation_frame_effect_witness :
    ((toggleNoteMelody [⟨0, 0, 1, 60, 80, true⟩, ⟨1, 1, 2, 64, 70, false⟩] 1).length = 2 ∧
      ∀ i, i < 2 →
        ∃ a b, (toggleNoteMelody [⟨0, 0, 1, 60, 80, true⟩, ⟨1, 1, 2, 64, 70, false⟩] 1)[i]? = some a ∧
          [(⟨0, 0, 1, 60, 80, true⟩ : Note), ⟨1, 1, 2, 64, 70, false⟩][i]? = some b ∧
          SameButMelody a b ∧ (b.id ≠ 1 → a = b))
    ∧ ((setSelectedAsMelody [⟨0, 0, 1, 60, 80, true⟩, ⟨1, 1, 2, 64, 70, false⟩] [0]).length = 2 ∧
      ∀ i, i < 2 →
        ∃ a b, (setSelectedAsMelody [⟨0, 0, 1, 60, 80, true⟩, ⟨1, 1, 2, 64, 70, false⟩] [0])[i]? = some a ∧
          [(⟨0, 0, 1, 60, 80, true⟩ : Note), ⟨1, 1, 2, 64, 70, false⟩][i]? = some b ∧
          SameButMelody a b ∧ (List.contains [0] b.id = false → a = b))
    ∧ ((setSelectedAsAccompaniment [⟨0, 0, 1, 60, 80, true⟩, ⟨1, 1, 2, 64, 70, false⟩] [0]).length = 2 ∧
      ∀ i, i < 2 →
        ∃ a b, (setSelectedAsAccompaniment [⟨0, 0, 1, 60, 80, true⟩, ⟨1, 1, 2, 64, 70, false⟩] [0])[i]? = some a ∧
          [(⟨0, 0, 1, 60, 80, true⟩ : Note), ⟨1, 1, 2, 64, 70, false⟩][i]? = some b ∧
          SameButMelody a b ∧ (List.contains [0] b.id = false → a = b)) :=
  annotation_frame_effect [⟨0, 0, 1, 60, 80, true⟩, ⟨1, 1, 2, 64, 70, false⟩] 1 [0]

/-! ## Skyline melody extractor

Modelled from the spec (§4.2): the extractor lives in the backend
(`backend/main.py`), which is not among the provided sources.  Notes are
sorted by start ascending with ties broken by pitch descending; a sweep marks
each onset melody when its pitch exceeds every currently sounding note, and
demotes lower overlapping notes that were previously melody. -/

/-- Temporal overlap test: `start_a < end_b ∧ start_b < end_a`. -/
def overlapsN (a b : Note) : Prop :=
  a.start < b.end_ ∧ b.start < a.end_

instance (a b : Note) : Decidable (overlapsN a b) := by
  unfold overlapsN; infer_instance

/-- A note is currently sounding at time `t` when `start ≤ t < end`. -/
def soundingAt (m : Note) (t : ℚ) : Prop :=
  m.start ≤ t ∧ t < m.end_

instance (m : Note) (t : ℚ) : Decidable (soundingAt m t) := by
  unfold soundingAt; infer_instance

/-- Sort order of the Skyline extractor: `start` ascending, ties by `pitch`
descending. -/
def noteLE (a b : Note) : Prop :=
  a.start < b.start ∨ (a.start = b.start ∧ b.pitch ≤ a.pitch)

instance : DecidableRel noteLE := fun a b => by
  unfold noteLE; infer_instance

instance : IsTotal Note noteLE := ⟨fun a b => by
  unfold noteLE
  rcases lt_trichotomy a.start b.start with h | h | h
  · exact Or.inl (Or.inl h)
  · rcases le_total b.pitch a.pitch with hp | hp
    · exact Or.inl (Or.inr ⟨h, hp⟩)
    · exact Or.inr (Or.inr ⟨h.symm, hp⟩)
  · exact Or.inr (Or.inl h)⟩

instance : IsTrans Note noteLE := ⟨fun a b c hab hbc => by
  unfold noteLE at *
  rcases hab with h1 | ⟨h1, p1⟩ <;> rcases hbc with h2 | ⟨h2, p2⟩
  · exact Or.inl (h1.trans h2)
  · exact Or.inl (by rw [← h2]; exact h1)
  · exact Or.inl (by rw [h1]; exact h2)
  · exact Or.inr ⟨h1.trans h2, p2.trans p1⟩⟩

/-- Demotion step: a previously-melody note that overlaps the new onset `n`
and is lower-pitched gets demoted to accompaniment. -/
def demoteIfCovered (n m : Note) : Note :=
  if m.is_melody && decide (overlapsN m n) && decide (m.pitch < n.pitch) then
    { m with is_melody := false }
  else m

/-- One sweep step of the Skyline extractor: if the new onset `n` is higher
than every currently sounding processed note it becomes melody (demoting
lower overlapping melody notes), otherwise it becomes accompaniment. -/
def skylineStep (processed : List Note) (n : Note) : List Note :=
  if (processed.filter fun m => decide (soundingAt m n.start)).all
      (fun m => decide (m.pitch < n.pitch)) then
    processed.map (demoteIfCovered n) ++ [{ n with is_melody := true }]
  else
    processed ++ [{ n with is_melody := false }]

/-- The Skyline extractor: sort by onset (ties: higher pitch first), then
sweep. -/
def skyline (notes : List Note) : List Note :=
  (List.insertionSort noteLE notes).foldl skylineStep []

/-- `demoteIfCovered` only ever touches the `is_melody` flag. -/
theorem demote_eq_or (n z : Note) :
    demoteIfCovered n z = z ∨ demoteIfCovered n z = { z with is_melody := false } := by
  unfold demoteIfCovered
  split
  · exact Or.inr rfl
  · exact Or.inl rfl

theorem demote_start (n z : Note) : (demoteIfCovered n z).start = z.start := by
  rcases demote_eq_or n z with h | h <;> rw [h]

theorem demote_end (n z : Note) : (demoteIfCovered n z).end_ = z.end_ := by
  rcases demote_eq_or n z with h | h <;> rw [h]

theorem demote_pitch (n z : Note) : (demoteIfCovered n z).pitch = z.pitch := by
  rcases demote_eq_or n z with h | h <;> rw [h]

theorem overlapsN_demote_left (n z y : Note) :
    overlapsN (demoteIfCovered n z) y ↔ overlapsN z y := by
  unfold overlapsN
  rw [demote_start, demote_end]

theorem overlapsN_demote_right (n z y : Note) :
    overlapsN y (demoteIfCovered n z) ↔ overlapsN y z := by
  unfold overlapsN
  rw [demote_start, demote_end]

/-- If the demoted note is still melody then it was melody and it is not a
lower-pitched overlap of `n` (so it was in fact left unchanged). -/
theorem demote_melody_true {n z : Note}
    (h : (demoteIfCovered n z).is_melody = true) :
    demoteIfCovered n z = z ∧ z.is_melody = true ∧
      (overlapsN z n → n.pitch ≤ z.pitch) := by
  by_cases hc : (z.is_melody && decide (overlapsN z n) && decide (z.pitch < n.pitch)) = true
  · unfold demoteIfCovered at h
    rw [if_pos hc] at h
    simp at h
  · unfold demoteIfCovered at h ⊢
    rw [if_neg hc] at h ⊢
    simp only [Bool.and_eq_true, decide_eq_true_eq] at hc
    refine ⟨rfl, h, fun hov => ?_⟩
    exact not_lt.1 fun hlt => hc ⟨⟨h, hov⟩, hlt⟩

/-- The Skyline postcondition: a melody note is never overlapped by a
strictly higher-pitched note in the same list. -/
def SkyInv (l : List Note) : Prop :=
  ∀ b ∈ l, b.is_melody = true → ∀ a ∈ l, overlapsN a b → a.pitch ≤ b.pitch

/-- Every element of `skylineStep acc n` has the start time of `n` or of some
element of `acc`. -/
theorem skylineStep_start {x : Note} {acc : List Note} {n : Note}
    (hx : x ∈ skylineStep acc n) :
    x.start = n.start ∨ ∃ y ∈ acc, x.start = y.start := by
  unfold skylineStep at hx
  split at hx <;> rcases List.mem_append.1 hx with h | h
  · rcases List.mem_map.1 h with ⟨y, hy, rfl⟩
    exact Or.inr ⟨y, hy, demote_start n y⟩
  · rw [List.mem_singleton.1 h]
    exact Or.inl rfl
  · exact Or.inr ⟨x, h, rfl⟩
  · rw [List.mem_singleton.1 h]
    exact Or.inl rfl

/-- The sweep step preserves the Skyline invariant whenever every processed
note starts no later than the new onset. -/
theorem skylineStep_inv (acc : List Note) (n : Note)
    (hstart : ∀ m ∈ acc, m.start ≤ n.start) (hinv : SkyInv acc) :
    SkyInv (skylineStep acc n) := by
  unfold skylineStep
  split
  · -- melody branch: every sounding processed note is lower than `n`
    next hall =>
    have hall' : ∀ m ∈ acc, soundingAt m n.start → m.pitch < n.pitch := by
      intro m hm hs
      have := List.all_eq_true.1 hall m (List.mem_filter.2 ⟨hm, by simpa using hs⟩)
      simpa using this
    intro b hb hbmel a ha hov
    rcases List.mem_append.1 hb with hb' | hb'
    · rcases List.mem_map.1 hb' with ⟨y, hy, rfl⟩
      obtain ⟨hyeq, hymel, hyov⟩ := demote_melody_true hbmel
      have hnov : ¬ overlapsN y n := by
        intro hov'
        have hs : soundingAt y n.start := ⟨hstart y hy, hov'.2⟩
        exact absurd (hyov hov') (not_le.2 (hall' y hy hs))
      rw [hyeq] at hov ⊢
      rcases List.mem_append.1 ha with ha' | ha'
      · rcases List.mem_map.1 ha' with ⟨z, hz, rfl⟩
        rw [demote_pitch]
        rw [overlapsN_demote_left] at hov
        exact hinv y hy hymel z hz hov
      · rw [List.mem_singleton.1 ha'] at hov
        exfalso
        apply hnov
        unfold overlapsN at hov ⊢
        exact ⟨hov.2, hov.1⟩
    · rw [List.mem_singleton.1 hb']
      rcases List.mem_append.1 ha with ha' | ha'
      · rcases List.mem_map.1 ha' with ⟨z, hz, rfl⟩
        rw [List.mem_singleton.1 hb'] at hov
        rw [demote_pitch]
        rw [overlapsN_demote_left] at hov
        have hzs : soundingAt z n.start := by
          refine ⟨hstart z hz, ?_⟩
          exact hov.2
        exact le_of_lt (hall' z hz hzs)
      · rw [List.mem_singleton.1 ha']
  · -- accompaniment branch: some sounding processed note is at least as high
    next hall =>
    have hex : ∃ m0, m0 ∈ acc ∧ soundingAt m0 n.start ∧ n.pitch ≤ m0.pitch := by
      by_contra hno
      push_neg at hno
      apply hall
      rw [List.all_eq_true]
      intro m hm
      obtain ⟨hma, hms⟩ := List.mem_filter.1 hm
      have hms' : soundingAt m n.start := by simpa using hms
      have := hno m hma hms'
      simpa using this
    obtain ⟨m0, hm0, hm0s, hm0p⟩ := hex
    intro b hb hbmel a ha hov
    rcases List.mem_append.1 hb with hb' | hb'
    · rcases List.mem_append.1 ha with ha' | ha'
      · exact hinv b hb' hbmel a ha' hov
      · rw [List.mem_singleton.1 ha'] at hov ⊢
        have hbn : n.start < b.end_ := hov.1
        have hov0 : overlapsN m0 b :=
          ⟨lt_of_le_of_lt (hstart m0 hm0) hbn,
           lt_of_le_of_lt (hstart b hb') hm0s.2⟩
        exact le_trans hm0p (hinv b hb' hbmel m0 hm0 hov0)
    · rw [List.mem_singleton.1 hb'] at hbmel
      simp at hbmel

/-- Sweeping a start-sorted list preserves the Skyline invariant. -/
theorem skyline_foldl_inv :
    ∀ (rest : List Note) (acc : List Note), SkyInv acc →
      (∀ m ∈ acc, ∀ n ∈ rest, m.start ≤ n.start) →
      List.Pairwise (fun a b : Note => a.start ≤ b.start) rest →
      SkyInv (rest.foldl skylineStep acc)
  | [], _, hinv, _, _ => hinv
  | n :: rest, acc, hinv, hle, hpair => by
      rw [List.foldl_cons]
      apply skyline_foldl_inv rest (skylineStep acc n)
      · exact skylineStep_inv acc n (fun m hm => hle m hm n (List.mem_cons_self _ _)) hinv
      · intro m hm n' hn'
        rcases skylineStep_start hm with h | ⟨y, hy, h⟩
        · rw [h]
          exact (List.pairwise_cons.1 hpair).1 n' hn'
        · rw [h]
          exact hle y hy n' (List.mem_cons_of_mem _ hn')
      · exact (List.pairwise_cons.1 hpair).2

/-- C3: after the Skyline extractor runs, no temporally overlapping pair has
the higher-pitched note marked accompaniment while the lower one is melody;
and on two simultaneous notes of pitches 60 and 64 the extractor marks pitch
64 melody and pitch 60 accompaniment. -/
theorem skyline_invariant :
    (∀ notes : List Note, ∀ a ∈ skyline notes, ∀ b ∈ skyline notes,
        overlapsN a b → b.pitch < a.pitch →
          ¬(a.is_melody = false ∧ b.is_melody = true))
    ∧ (skyline [⟨0, 0, 1, 60, 80, false⟩, ⟨1, 0, 1, 64, 80, false⟩]).map
        (fun n => (n.pitch, n.is_melody)) = [(64, true), (60, false)] := by
  constructor
  · intro notes a ha b hb hov hp hcontra
    have hinv : SkyInv (skyline notes) := by
      unfold skyline
      apply skyline_foldl_inv
      · intro b hb
        exact absurd hb (List.not_mem_nil b)
      · intro m hm
        exact absurd hm (List.not_mem_nil m)
      · refine (List.sorted_insertionSort noteLE notes).imp ?_
        intro a b hab
        rcases hab with h | ⟨h, _⟩
        · exact le_of_lt h
        · exact le_of_eq h
    have := hinv b hb hcontra.2 a ha hov
    exact absurd this (not_le.2 hp)
  · decide


/-! ## Slicer

Modelled from the spec (§4.6): the slicer lives in the backend
(`backend/main.py`, `/tokenize_sliced`), which is not among the provided
sources.  Windows are `[k*(slice_duration-overlap),
k*(slice_duration-overlap)+slice_duration)` for `k = 0, 1, ...` while the
window start is `< total_duration`; a note belongs to the window containing
its `start` and is re-based to the window start.  The frontend caller
(`tokenizeMidiSliced` in App.vue) always passes `overlap = 0` and rejects a
nonpositive `slice_duration`. -/

/-- A slice: window identifier, absolute window bounds in seconds, and the
re-based notes of the window. -/
structure Slice where
  slice_id : ℕ
  start_time : ℚ
  end_time : ℚ
  notes : List Note
deriving DecidableEq, Repr

/-- Modelled from the spec: the slicer.  There is one window for each `k`
with `k * (slice_duration - overlap) < total_duration`. -/
def sliceNotes (notes : List Note) (total_duration slice_duration overlap : ℚ) :
    List Slice :=
  (List.range (if slice_duration - overlap ≤ 0 then 0
      else (⌈total_duration / (slice_duration - overlap)⌉).toNat)).map fun k =>
    { slice_id := k
      start_time := (k : ℚ) * (slice_duration - overlap)
      end_time := (k : ℚ) * (slice_duration - overlap) + slice_duration
      notes := (notes.filter fun m =>
          decide ((k : ℚ) * (slice_duration - overlap) ≤ m.start) &&
          decide (m.start < (k : ℚ) * (slice_duration - overlap) + slice_duration)).map
        fun m => { m with start := m.start - (k : ℚ) * (slice_duration - overlap),
                          end_ := m.end_ - (k : ℚ) * (slice_duration - overlap) } }

/-- C7: with `overlap = 0` and positive `slice_duration`, every note whose
start lies in `[0, total_duration)` falls in exactly one window
`[k*d, (k+1)*d)`, and the note re-based to that window's start is a member of
that slice's note list (so no note is split or duplicated). -/
theorem slicer_unique_assignment (notes : List Note) (total d : ℚ) (n : Note)
    (hd : 0 < d) (hn : n ∈ notes) (h0 : 0 ≤ n.start) (h1 : n.start < total) :
    (∃! k : ℕ, ∃ s : Slice, (sliceNotes notes total d 0)[k]? = some s ∧
        s.start_time ≤ n.start ∧ n.start < s.start_time + d)
    ∧ (∀ (k : ℕ) (s : Slice), (sliceNotes notes total d 0)[k]? = some s →
        s.start_time ≤ n.start → n.start < s.start_time + d →
          { n with start := n.start - s.start_time,
                   end_ := n.end_ - s.start_time } ∈ s.notes) := by
  have hd0 : d - 0 = d := by ring
  have hstep : ¬ (d - 0 ≤ 0) := by simpa [hd0] using hd
  have hnum : (if d - 0 ≤ 0 then 0 else (⌈total / (d - 0)⌉).toNat)
      = (⌈total / d⌉).toNat := by rw [if_neg hstep, hd0]
  have hget : ∀ k : ℕ, k < (⌈total / d⌉).toNat →
      (sliceNotes notes total d 0)[k]? = some
        { slice_id := k
          start_time := (k : ℚ) * (d - 0)
          end_time := (k : ℚ) * (d - 0) + d
          notes := (notes.filter fun m =>
              decide ((k : ℚ) * (d - 0) ≤ m.start) &&
              decide (m.start < (k : ℚ) * (d - 0) + d)).map
            fun m => { m with start := m.start - (k : ℚ) * (d - 0),
                              end_ := m.end_ - (k : ℚ) * (d - 0) } } := by
    intro k hk
    unfold sliceNotes
    rw [List.getElem?_map, hnum, List.getElem?_range hk, Option.map_some']
  have hlen : (sliceNotes notes total d 0).length = (⌈total / d⌉).toNat := by
    unfold sliceNotes
    rw [List.length_map, List.length_range, hnum]
  have hsome_lt : ∀ k : ℕ, ∀ s : Slice, (sliceNotes notes total d 0)[k]? = some s →
      k < (⌈total / d⌉).toNat := by
    intro k s hs
    by_contra hk'
    rw [List.getElem?_eq_none (by rw [hlen]; exact le_of_not_lt hk')] at hs
    exact Option.noConfusion hs
  -- the unique window index
  have huniq : ∀ k k' : ℕ, (k : ℚ) * d ≤ n.start → n.start < (k : ℚ) * d + d →
      (k' : ℚ) * d ≤ n.start → n.start < (k' : ℚ) * d + d → k = k' := by
    intro k k' h1k h2k h1k' h2k'
    have hkk' : (k : ℚ) * d < ((k' : ℚ) + 1) * d := by
      calc (k : ℚ) * d ≤ n.start := h1k
        _ < (k' : ℚ) * d + d := h2k'
        _ = ((k' : ℚ) + 1) * d := by ring
    have hk'k : (k' : ℚ) * d < ((k : ℚ) + 1) * d := by
      calc (k' : ℚ) * d ≤ n.start := h1k'
        _ < (k : ℚ) * d + d := h2k
        _ = ((k : ℚ) + 1) * d := by ring
    have e1 : (k : ℚ) < (k' : ℚ) + 1 := lt_of_mul_lt_mul_right hkk' (le_of_lt hd)
    have e2 : (k' : ℚ) < (k : ℚ) + 1 := lt_of_mul_lt_mul_right hk'k (le_of_lt hd)
    have e1' : k < k' + 1 := by exact_mod_cast e1
    have e2' : k' < k + 1 := by exact_mod_cast e2
    omega
  -- the window containing n.start
  have hfl0 : 0 ≤ ⌊n.start / d⌋ := Int.floor_nonneg.2 (by positivity)
  set k0 : ℕ := (⌊n.start / d⌋).toNat with hk0def
  have hk0c : (k0 : ℚ) = ((⌊n.start / d⌋ : ℤ) : ℚ) := by
    rw [hk0def]
    exact_mod_cast congrArg (fun z : ℤ => (z : ℚ)) (Int.toNat_of_nonneg hfl0)
  have hk0le : (k0 : ℚ) * d ≤ n.start := by
    have h := Int.floor_le (n.start / d)
    have h' : (k0 : ℚ) ≤ n.start / d := by
      calc (k0 : ℚ) = ((⌊n.start / d⌋ : ℤ) : ℚ) := hk0c
        _ ≤ n.start / d := h
    calc (k0 : ℚ) * d ≤ n.start / d * d :=
          mul_le_mul_of_nonneg_right h' (le_of_lt hd)
      _ = n.start := div_mul_cancel₀ _ (ne_of_gt hd)
  have hk0lt : n.start < (k0 : ℚ) * d + d := by
    have h := Int.lt_floor_add_one (n.start / d)
    have h' : n.start / d < (k0 : ℚ) + 1 := by
      calc n.start / d < ((⌊n.start / d⌋ : ℤ) : ℚ) + 1 := h
        _ = (k0 : ℚ) + 1 := by rw [← hk0c]
    calc n.start = n.start / d * d := (div_mul_cancel₀ _ (ne_of_gt hd)).symm
      _ < ((k0 : ℚ) + 1) * d := mul_lt_mul_of_pos_right h' hd
      _ = (k0 : ℚ) * d + d := by ring
  have hk0num : k0 < (⌈total / d⌉).toNat := by
    have hq : ((⌊n.start / d⌋ : ℤ) : ℚ) < ((⌈total / d⌉ : ℤ) : ℚ) := by
      calc ((⌊n.start / d⌋ : ℤ) : ℚ) ≤ n.start / d := Int.floor_le _
        _ < total / d := by
            rw [div_lt_div_iff_of_pos_right hd]
            exact h1
        _ ≤ ((⌈total / d⌉ : ℤ) : ℚ) := Int.le_ceil _
    have hz : ⌊n.start / d⌋ < ⌈total / d⌉ := by exact_mod_cast hq
    omega
  constructor
  · refine ⟨k0, ⟨_, hget k0 hk0num, ?_, ?_⟩, ?_⟩
    · simpa [hd0] using hk0le
    · simpa [hd0] using hk0lt
    · intro k ⟨s, hs, hsle, hslt⟩
      have hk : k < (⌈total / d⌉).toNat := hsome_lt k s hs
      rw [hget k hk] at hs
      have hs' : s = _ := (Option.some.inj hs).symm
      rw [hs'] at hsle hslt
      simp only [hd0] at hsle hslt
      exact huniq k k0 hsle hslt (by simpa [hd0] using hk0le)
        (by simpa [hd0] using hk0lt)
  · intro k s hs hsle hslt
    have hk : k < (⌈total / d⌉).toNat := hsome_lt k s hs
    rw [hget k hk] at hs
    have hs' : s = _ := (Option.some.inj hs).symm
    subst hs'
    simp only [hd0] at hsle hslt ⊢
    apply List.mem_map.2
    refine ⟨n, List.mem_filter.2 ⟨hn, ?_⟩, rfl⟩
    simp only [Bool.and_eq_true, decide_eq_true_eq, hd0]
    exact ⟨hsle, hslt⟩

/-- Witness for `slicer_unique_assignment`: a note starting at `5` with
window duration `4` and total duration `10`. -/
theorem slicer_unique_assignment_witness :
    (∃! k : ℕ, ∃ s : Slice, (sliceNotes [⟨0, 5, 11/2, 60, 80, true⟩] 10 4 0)[k]? = some s ∧
        s.start_time ≤ (5 : ℚ) ∧ (5 : ℚ) < s.start_time + 4)
    ∧ (∀ (k : ℕ) (s : Slice), (sliceNotes [⟨0, 5, 11/2, 60, 80, true⟩] 10 4 0)[k]? = some s →
        s.start_time ≤ (5 : ℚ) → (5 : ℚ) < s.start_time + 4 →
          { (⟨0, 5, 11/2, 60, 80, true⟩ : Note) with
              start := 5 - s.start_time, end_ := 11/2 - s.start_time } ∈ s.notes) :=
  slicer_unique_assignment [⟨0, 5, 11/2, 60, 80, true⟩] 10 4 ⟨0, 5, 11/2, 60, 80, true⟩
    (by norm_num) (List.mem_singleton.2 rfl) (by norm_num) (by norm_num)

/-! ## Token upload handling (frontend, App.vue)

`handleTokensUpload` (src/frontend/src/App.vue, `src/unnamed/part_001`)
dispatches on the shape of the parsed JSON: a `samples` array (sliced token
format), a `training_sequence` field (single token format), or neither, in
which case it throws a format error and produces no result.  The remote
decoding endpoints and the user-interaction results (`confirm`/`prompt`) are
passed in as parameters; the downloaded MIDI is represented by the note list
and file name an `ok` result carries. -/

/-- One entry of the `samples` array of a sliced token JSON file. -/
structure SampleJson where
  slice_id : ℕ
  training_sequence : List ℤ
  start_time : ℚ
  end_time : ℚ

/-- The shape of an uploaded token JSON object: each field may be absent. -/
structure TokensJson where
  samples : Option (List SampleJson)
  training_sequence : Option (List ℤ)
  time_quantization_ms : Option ℕ

/-- `handleTokensUpload` (App.vue): decision logic of the Token→MIDI upload
handler.  `decode` and `decodeTargetOnly` stand for the backend endpoints
`/tokens_to_notes` and `/tokens_to_notes_target_only`; `userConfirm` and
`userIndex` stand for the `confirm`/`prompt` answers.  An `Except.error`
models the thrown error (caught by the surrounding `try`, which alerts and
produces no MIDI); an `Except.ok` carries the note data and file name sent on
to `/json_to_midi`. -/
def handleTokensUpload (decode decodeTargetOnly : List ℤ → ℕ → List Note)
    (userConfirm : Bool) (userIndex : ℤ) (jsonData : TokensJson) :
    Except String (List Note × String) :=
  match jsonData.samples with
  | some samples =>
      if samples.length = 0 then
        Except.error "没有找到可用的训练样本"
      else if 1 < samples.length ∧ userConfirm then
        Except.ok
          (samples.flatMap fun sample =>
            (decodeTargetOnly sample.training_sequence
                (jsonData.time_quantization_ms.getD 10)).map fun note =>
              { note with start := note.start + sample.start_time,
                          end_ := note.end_ + sample.start_time },
          "merged_all_slices.mid")
      else
        let sampleIndex : ℤ := if samples.length = 1 then 0 else userIndex
        if h : sampleIndex < 0 ∨ (samples.length : ℤ) ≤ sampleIndex then
          Except.error "无效的样本编号"
        else
          Except.ok
            (decode (samples.get ⟨sampleIndex.toNat, by omega⟩).training_sequence
              (jsonData.time_quantization_ms.getD 10),
            "sample_" ++ toString sampleIndex ++ ".mid")
  | none =>
      match jsonData.training_sequence with
      | some ts =>
          Except.ok (decode ts (jsonData.time_quantization_ms.getD 10), "converted.mid")
      | none =>
          Except.error "无法识别的Token格式，请确保JSON包含 training_sequence 或 samples 字段"

/-- C9: when the uploaded JSON contains neither a `training_sequence` field
nor a `samples` array, `handleTokensUpload` reports a format error and
produces no partial result (no `ok` value with notes and a file name). -/
theorem tokens_upload_format_error
    (decode decodeTargetOnly : List ℤ → ℕ → List Note)
    (userConfirm : Bool) (userIndex : ℤ) (jsonData : TokensJson)
    (hs : jsonData.samples = none) (ht : jsonData.training_sequence = none) :
    handleTokensUpload decode decodeTargetOnly userConfirm userIndex jsonData
      = Except.error "无法识别的Token格式，请确保JSON包含 training_sequence 或 samples 字段"
    ∧ ∀ result, handleTokensUpload decode decodeTargetOnly userConfirm userIndex jsonData
      ≠ Except.ok result := by
  constructor
  · unfold handleTokensUpload
    rw [hs, ht]
  · intro result hok
    unfold handleTokensUpload at hok
    rw [hs, ht] at hok
    exact Except.noConfusion hok

/-- Witness for `tokens_upload_format_error` on a concrete empty JSON
object. -/
theorem tokens_upload_format_error_witness :
    handleTokensUpload (fun _ _ => []) (fun _ _ => []) false 0 ⟨none, none, none⟩
      = Except.error "无法识别的Token格式，请确保JSON包含 training_sequence 或 samples 字段"
    ∧ ∀ result, handleTokensUpload (fun _ _ => []) (fun _ _ => []) false 0 ⟨none, none, none⟩
      ≠ Except.ok result :=
  tokens_upload_format_error (fun _ _ => []) (fun _ _ => []) false 0 ⟨none, none, none⟩ rfl rfl

/-! ## Note ↔ event projection and the token codecs

Modelled from the spec (§4.3–§4.5): the encoder/decoder pair lives in the
backend (`backend/main.py`: `/tokenize` with compound and simple
vocabularies, `/tokenize` training form, `tokens_to_notes`,
`tokens_to_notes_target_only`), which is not among the provided sources.
The open question of the tie-break for simultaneous events is fixed as the
spec recommends: OFF before ON at equal tick. -/

/-- A quantized note event at an absolute tick.  OFF events carry no
velocity; the field is 0 for them. -/
structure MidiEvent where
  tick : ℤ
  isOn : Bool
  pitch : ℕ
  velocity : ℕ
  melody : Bool
deriving DecidableEq, Repr

/-- Event order: absolute tick ascending; at equal ticks NOTE_OFF
(`isOn = false`) comes before NOTE_ON. -/
def eventLE (a b : MidiEvent) : Prop :=
  a.tick < b.tick ∨ (a.tick = b.tick ∧ a.isOn ≤ b.isOn)

instance : DecidableRel eventLE := fun a b => by
  unfold eventLE; infer_instance

instance : IsTotal MidiEvent eventLE := ⟨fun a b => by
  unfold eventLE
  rcases lt_trichotomy a.tick b.tick with h | h | h
  · exact Or.inl (Or.inl h)
  · rcases le_total a.isOn b.isOn with hb | hb
    · exact Or.inl (Or.inr ⟨h, hb⟩)
    · exact Or.inr (Or.inr ⟨h.symm, hb⟩)
  · exact Or.inr (Or.inl h)⟩

instance : IsTrans MidiEvent eventLE := ⟨fun a b c hab hbc => by
  unfold eventLE at *
  rcases hab with h1 | ⟨h1, p1⟩ <;> rcases hbc with h2 | ⟨h2, p2⟩
  · exact Or.inl (h1.trans h2)
  · exact Or.inl (by rw [← h2]; exact h1)
  · exact Or.inl (by rw [h1]; exact h2)
  · exact Or.inr ⟨h1.trans h2, p1.trans p2⟩⟩

/-- The two events of one note under velocity assignment `vel`: NOTE_ON at
the quantized start, NOTE_OFF at the quantized end. -/
def noteEvents (vel : Note → ℕ) (q : ℚ) (n : Note) : List MidiEvent :=
  [⟨to_ticks n.start q, true, n.pitch, vel n, n.is_melody⟩,
   ⟨to_ticks n.end_ q, false, n.pitch, 0, n.is_melody⟩]

/-- Modelled from the spec (§4.3): the note → event projector; all events of
all notes, sorted by tick with OFF before ON at equal ticks. -/
def notesToEvents (vel : Note → ℕ) (q : ℚ) (notes : List Note) : List MidiEvent :=
  List.insertionSort eventLE (notes.flatMap (noteEvents vel q))

/-- An event record of the flat codings: a TIME_SHIFT, a NOTE_ON (with
velocity) or a NOTE_OFF. -/
inductive SRec where
  | time (delta : ℤ)
  | on (pitch velocity : ℕ) (melody : Bool)
  | off (pitch : ℕ) (melody : Bool)
deriving DecidableEq, Repr

/-- Delta-encode an absolute-tick event list into records, starting the
clock at `t`; a TIME_SHIFT is emitted only for a positive delta. -/
def deltaEncode : ℤ → List MidiEvent → List SRec
  | _, [] => []
  | t, e :: rest =>
      (if t < e.tick then [SRec.time (e.tick - t)] else []) ++
      (if e.isOn then [SRec.on e.pitch e.velocity e.melody]
        else [SRec.off e.pitch e.melody]) ++
      deltaEncode e.tick rest

/-- Simple numeric vocabulary of one record: `[0, delta]`,
`[1, pitch, velocity, is_melody]`, `[2, pitch, is_melody]`. -/
def simpleOfRec : SRec → List ℤ
  | SRec.time d => [0, d]
  | SRec.on p v m => [1, (p : ℤ), (v : ℤ), if m then 1 else 0]
  | SRec.off p m => [2, (p : ℤ), if m then 1 else 0]

/-- Modelled from the spec (§4.4): the flat simple-vocabulary encoder. -/
def notes_to_simple (q : ℚ) (notes : List Note) : List ℤ :=
  (deltaEncode 0 (notesToEvents Note.velocity q notes)).flatMap simpleOfRec

/-- Parse a simple-vocabulary integer stream back into records.  An
unrecognized leading code is skipped; a truncated record ends the parse. -/
def parseSimple : List ℤ → List SRec
  | 0 :: d :: l => SRec.time d :: parseSimple l
  | 1 :: p :: v :: m :: l => SRec.on p.toNat v.toNat (m != 0) :: parseSimple l
  | 2 :: p :: m :: l => SRec.off p.toNat (m != 0) :: parseSimple l
  | _ :: l => parseSimple l
  | [] => []

/-- The compound vocabulary, one token per event: these model the strings
`TIME_SHIFT_{n}`, `NOTE_ON_{pitch}_{velocity}_{MELODY|ACCOMP}` and
`NOTE_OFF_{pitch}_{MELODY|ACCOMP}`, whose rendering is a bijection on the
fields. -/
inductive CompoundToken where
  | TIME_SHIFT (n : ℤ)
  | NOTE_ON (pitch velocity : ℕ) (melody : Bool)
  | NOTE_OFF (pitch : ℕ) (melody : Bool)
deriving DecidableEq, Repr

def compoundOfRec : SRec → CompoundToken
  | SRec.time d => CompoundToken.TIME_SHIFT d
  | SRec.on p v m => CompoundToken.NOTE_ON p v m
  | SRec.off p m => CompoundToken.NOTE_OFF p m

def recOfCompound : CompoundToken → SRec
  | CompoundToken.TIME_SHIFT d => SRec.time d
  | CompoundToken.NOTE_ON p v m => SRec.on p v m
  | CompoundToken.NOTE_OFF p m => SRec.off p m

/-- Modelled from the spec (§4.4): the flat compound-vocabulary encoder. -/
def notes_to_compound (q : ℚ) (notes : List Note) : List CompoundToken :=
  (deltaEncode 0 (notesToEvents Note.velocity q notes)).map compoundOfRec

/-- An event record of the training coding (velocity is not preserved). -/
inductive TRec where
  | time (delta : ℤ)
  | on (pitch : ℕ) (melody : Bool)
  | off (pitch : ℕ) (melody : Bool)
deriving DecidableEq, Repr

/-- Numeric code of one training record: `[0, delta]`; `[10, pitch]` /
`[11, pitch]` for melody ON/OFF; `[20, pitch]` / `[21, pitch]` for
accompaniment ON/OFF. -/
def trainOfRec : TRec → List ℤ
  | TRec.time d => [0, d]
  | TRec.on p true => [10, (p : ℤ)]
  | TRec.on p false => [20, (p : ℤ)]
  | TRec.off p true => [11, (p : ℤ)]
  | TRec.off p false => [21, (p : ℤ)]

/-- Forget the velocity of a flat record. -/
def srecToTrec : SRec → TRec
  | SRec.time d => TRec.time d
  | SRec.on p _ m => TRec.on p m
  | SRec.off p m => TRec.off p m

/-- DEFAULT_VELOCITY: the documented default value used for the velocity
field dropped by the training coding. -/
def DEFAULT_VELOCITY : ℕ := 80

/-- Reconstitute a flat record from a training record, using the default
velocity for NOTE_ON. -/
def trecToSrec : TRec → SRec
  | TRec.time d => SRec.time d
  | TRec.on p m => SRec.on p DEFAULT_VELOCITY m
  | TRec.off p m => SRec.off p m

/-- Modelled from the spec (§4.4): the training-sequence encoder.
`[BOS] ++ Source ++ [SEP] ++ Target ++ [EOS]` with `1 = BOS`, `2 = SEP`,
`3 = EOS`; Source is the event stream of the melody notes only, Target the
event stream of all notes, each independently clocked from tick 0. -/
def training_sequence (q : ℚ) (notes : List Note) : List ℤ :=
  [1]
  ++ ((deltaEncode 0 (notesToEvents Note.velocity q
        (notes.filter Note.is_melody))).map srecToTrec).flatMap trainOfRec
  ++ [2]
  ++ ((deltaEncode 0 (notesToEvents Note.velocity q notes)).map
        srecToTrec).flatMap trainOfRec
  ++ [3]

/-- Parse a training-coded integer stream into records.  BOS and SEP are
skipped (the clock keeps running across SEP), EOS stops the parse,
an unrecognized leading code is skipped, a truncated record ends the
parse. -/
def parseTrain : List ℤ → List TRec
  | 1 :: l => parseTrain l
  | 2 :: l => parseTrain l
  | 3 :: _ => []
  | 0 :: d :: l => TRec.time d :: parseTrain l
  | 10 :: p :: l => TRec.on p.toNat true :: parseTrain l
  | 11 :: p :: l => TRec.off p.toNat true :: parseTrain l
  | 20 :: p :: l => TRec.on p.toNat false :: parseTrain l
  | 21 :: p :: l => TRec.off p.toNat false :: parseTrain l
  | _ :: l => parseTrain l
  | [] => []

/-- Record-aware scan that drops everything up to and including the SEP
marker (2); an EOS (3) before the SEP ends the scan with nothing left. -/
def dropToSep : List ℤ → List ℤ
  | 2 :: l => l
  | 3 :: _ => []
  | 0 :: _ :: l => dropToSep l
  | 10 :: _ :: l => dropToSep l
  | 11 :: _ :: l => dropToSep l
  | 20 :: _ :: l => dropToSep l
  | 21 :: _ :: l => dropToSep l
  | _ :: l => dropToSep l
  | [] => []

/-- A decoded note at tick level: start tick, end tick, pitch, velocity,
voice. -/
structure RawNote where
  onTick : ℤ
  offTick : ℤ
  pitch : ℕ
  velocity : ℕ
  melody : Bool
deriving DecidableEq, Repr

/-- The decoder's open-note table: `(pitch, voice) ↦ (start tick,
velocity)`; one open note per key, as the spec's mapping prescribes. -/
def OpenTable : Type := List ((ℕ × Bool) × ℤ × ℕ)

/-- First table entry for a key, if any. -/
def findOpen : List ((ℕ × Bool) × ℤ × ℕ) → ℕ × Bool → Option (ℤ × ℕ)
  | [], _ => none
  | e :: rest, k => if e.1 = k then some e.2 else findOpen rest k

/-- Remove the first table entry for a key. -/
def eraseOpen : List ((ℕ × Bool) × ℤ × ℕ) → ℕ × Bool → List ((ℕ × Bool) × ℤ × ℕ)
  | [], _ => []
  | e :: rest, k => if e.1 = k then rest else e :: eraseOpen rest k

/-- Store an open note, replacing any previous entry for the same key (the
spec's single-slot mapping). -/
def updateOpen (opens : List ((ℕ × Bool) × ℤ × ℕ)) (k : ℕ × Bool) (v : ℤ × ℕ) :
    List ((ℕ × Bool) × ℤ × ℕ) :=
  eraseOpen opens k ++ [(k, v)]

/-- Force-close every open note at tick `t` (end of sequence). -/
def closeAll (opens : List ((ℕ × Bool) × ℤ × ℕ)) (t : ℤ) : List RawNote :=
  opens.map fun o => ⟨o.2.1, t, o.1.1, o.2.2, o.1.2⟩

/-- Modelled from the spec (§4.5): the record decoder.  A running absolute
tick counter; NOTE_ON opens a `(pitch, voice)` slot; NOTE_OFF closes the
matching open slot, or is skipped when there is none (orphan OFF);
at end-of-sequence the remaining open notes are force-closed at the final
tick. -/
def decodeRecs : List SRec → ℤ → List ((ℕ × Bool) × ℤ × ℕ) → List RawNote
  | [], t, opens => closeAll opens t
  | SRec.time d :: rest, t, opens => decodeRecs rest (t + d) opens
  | SRec.on p v m :: rest, t, opens =>
      decodeRecs rest t (updateOpen opens (p, m) (t, v))
  | SRec.off p m :: rest, t, opens =>
      match findOpen opens (p, m) with
      | some sv => ⟨sv.1, t, p, sv.2, m⟩ :: decodeRecs rest t (eraseOpen opens (p, m))
      | none => decodeRecs rest t opens

/-- Convert a decoded raw note back to seconds (decoded notes get id 0; the
spec does not assign decoder ids). -/
def rawToNote (q : ℚ) (r : RawNote) : Note :=
  ⟨0, to_seconds r.onTick q, to_seconds r.offTick q, r.pitch, r.velocity, r.melody⟩

/-- Modelled from the spec (§4.5): decoder for the flat simple coding. -/
def tokens_to_notes_simple (tokens : List ℤ) (q : ℚ) : List Note :=
  (decodeRecs (parseSimple tokens) 0 []).map (rawToNote q)

/-- Modelled from the spec (§4.5): decoder for the compound coding. -/
def tokens_to_notes_compound (tokens : List CompoundToken) (q : ℚ) : List Note :=
  (decodeRecs (tokens.map recOfCompound) 0 []).map (rawToNote q)

/-- Modelled from the spec (§4.5) and README: `tokens_to_notes`, the
training-coding decoder.  It decodes both the Source and the Target segment
(BOS/SEP are skipped without resetting the clock, EOS stops); dropped
velocities become `DEFAULT_VELOCITY`. -/
def tokens_to_notes (tokens : List ℤ) (q : ℚ) : List Note :=
  (decodeRecs ((parseTrain tokens).map trecToSrec) 0 []).map (rawToNote q)

/-- Modelled from the spec (§4.5): `tokens_to_notes_target_only` decodes only
the Target segment (after SEP, before EOS), discarding the Source. -/
def tokens_to_notes_target_only (tokens : List ℤ) (q : ℚ) : List Note :=
  tokens_to_notes (dropToSep tokens) q

/-! ## Concrete end-to-end examples and decoder resilience -/

unseal Rat.add Rat.mul Rat.inv Rat.sub in
/-- C2: the training-sequence encoding of the single melody note
`start 0, end 0.4, pitch 60, velocity 80` with 100 ms quantization is
exactly `[BOS] ++ Source ++ [SEP] ++ Target ++ [EOS]` with both segments
clocked from tick 0 (Source = Target here as the only note is melody). -/
theorem training_sequence_example :
    training_sequence 100 [⟨0, 0, 2/5, 60, 80, true⟩]
      = [1, 10, 60, 0, 4, 11, 60, 2, 10, 60, 0, 4, 11, 60, 3] := by
  decide

unseal Rat.add Rat.mul Rat.inv Rat.sub in
/-- C6: the simple-vocabulary encoding of the same single note with
`time_quantization = 100` is exactly `[1, 60, 80, 1, 0, 4, 2, 60, 1]`:
NOTE_ON record with no leading TIME_SHIFT at tick 0, then TIME_SHIFT `[0,4]`,
then NOTE_OFF record. -/
theorem simple_vocab_example :
    notes_to_simple 100 [⟨0, 0, 2/5, 60, 80, true⟩]
      = [1, 60, 80, 1, 0, 4, 2, 60, 1] := by
  decide

unseal Rat.mul Rat.inv in
/-- C4: the decoder never fails on mismatched on/off pairing: a NOTE_OFF with
no matching open NOTE_ON is skipped, leaving the decode of the rest
unchanged; at end-of-sequence every open NOTE_ON is force-closed at the
final tick.  Concretely, a training sequence with only a dangling NOTE_OFF
decodes to the empty note list, and one with an unterminated NOTE_ON decodes
to a note ending at the final tick (here tick 4 = 0.4 s). -/
theorem decoder_resilient :
    (∀ (p : ℕ) (m : Bool) (rest : List SRec) (t : ℤ)
        (opens : List ((ℕ × Bool) × ℤ × ℕ)),
        findOpen opens (p, m) = none →
          decodeRecs (SRec.off p m :: rest) t opens = decodeRecs rest t opens)
    ∧ (∀ (t : ℤ) (opens : List ((ℕ × Bool) × ℤ × ℕ)),
        decodeRecs [] t opens = closeAll opens t)
    ∧ tokens_to_notes [1, 11, 60, 3] 100 = []
    ∧ tokens_to_notes [1, 10, 60, 0, 4, 3] 100 = [⟨0, 0, 2/5, 60, 80, true⟩] := by
  refine ⟨fun p m rest t opens hf => ?_, fun t opens => rfl, by decide, by decide⟩
  conv_lhs => rw [decodeRecs]
  rw [hf]

/-- Witness for `decoder_resilient`: skipping a dangling NOTE_OFF on the
empty open table. -/
theorem decoder_resilient_witness :
    decodeRecs [SRec.off 60 true] 0 [] = decodeRecs [] 0 [] :=
  decoder_resilient.1 60 true [] 0 [] rfl

/-- The note list of the C1 counterexample: two overlapping notes of the
same pitch and voice, a note of zero quantized duration, a later note, and a
note with negative start time. -/
def roundtripCexNotes : List Note :=
  [⟨1, 0, 1/2, 60, 80, true⟩, ⟨2, 1/5, 4/5, 60, 80, true⟩,
   ⟨3, 1, 51/50, 64, 80, true⟩, ⟨4, 2, 3, 72, 80, true⟩,
   ⟨5, -1, -1/2, 50, 80, true⟩]

unseal Rat.add Rat.mul Rat.inv Rat.sub in
/-- C1 as stated is false: on `roundtripCexNotes` with `q = 100`, some
original note (in fact the first, third and fifth) has no decoded note of the
same pitch, voice and velocity whose quantized start and end both lie within
one tick of the original's. -/
theorem roundtrip_counterexample :
    ∃ n ∈ roundtripCexNotes,
      ∀ d ∈ tokens_to_notes_simple (notes_to_simple 100 roundtripCexNotes) 100,
        ¬(d.pitch = n.pitch ∧ d.is_melody = n.is_melody ∧ d.velocity = n.velocity ∧
          (to_ticks d.start 100 - to_ticks n.start 100).natAbs ≤ 1 ∧
          (to_ticks d.end_ 100 - to_ticks n.end_ 100).natAbs ≤ 1) := by
  decide

/-- Witness for `skyline_invariant`: the invariant instantiated at the two
concrete overlapping notes of pitches 64 and 60. -/
theorem skyline_invariant_witness :
    ¬((⟨1, 0, 1, 64, 80, true⟩ : Note).is_melody = false ∧
      (⟨0, 0, 1, 60, 80, false⟩ : Note).is_melody = true) :=
  skyline_invariant.1 [⟨0, 0, 1, 60, 80, false⟩, ⟨1, 0, 1, 64, 80, false⟩]
    ⟨1, 0, 1, 64, 80, true⟩ (by decide) ⟨0, 0, 1, 60, 80, false⟩ (by decide)
    (by decide) (by decide)

/-! ## Round trip, part 1: serialization is positional and invertible -/

/-- Step equations of the simple-vocabulary parser. -/
theorem parseSimple_time (d : ℤ) (l : List ℤ) :
    parseSimple (0 :: d :: l) = SRec.time d :: parseSimple l := by
  conv_lhs => rw [parseSimple]
  all_goals intros
  all_goals omega

theorem parseSimple_on (p v m : ℤ) (l : List ℤ) :
    parseSimple (1 :: p :: v :: m :: l)
      = SRec.on p.toNat v.toNat (m != 0) :: parseSimple l := by
  conv_lhs => rw [parseSimple]
  all_goals intros
  all_goals omega

theorem parseSimple_off (p m : ℤ) (l : List ℤ) :
    parseSimple (2 :: p :: m :: l)
      = SRec.off p.toNat (m != 0) :: parseSimple l := by
  conv_lhs => rw [parseSimple]
  all_goals intros
  all_goals omega

theorem parseSimple_flatten (recs : List SRec) :
    parseSimple (recs.flatMap simpleOfRec) = recs := by
  induction recs with
  | nil => rfl
  | cons r rest ih =>
      rcases r with d | ⟨p, v, m⟩ | ⟨p, m⟩
      · rw [List.flatMap_cons]
        simp only [simpleOfRec, List.cons_append, List.nil_append]
        rw [parseSimple_time, ih]
      · rw [List.flatMap_cons]
        simp only [simpleOfRec, List.cons_append, List.nil_append]
        rw [parseSimple_on, ih]
        cases m <;> simp
      · rw [List.flatMap_cons]
        simp only [simpleOfRec, List.cons_append, List.nil_append]
        rw [parseSimple_off, ih]
        cases m <;> simp

theorem recOfCompound_compoundOfRec (r : SRec) :
    recOfCompound (compoundOfRec r) = r := by
  rcases r with d | ⟨p, v, m⟩ | ⟨p, m⟩ <;> rfl

theorem map_recOfCompound_map_compoundOfRec (recs : List SRec) :
    (recs.map compoundOfRec).map recOfCompound = recs := by
  induction recs with
  | nil => rfl
  | cons r rest ih => simp [recOfCompound_compoundOfRec, ih]

/-- Step equations of the training-coding parser. -/
theorem parseTrain_time (d : ℤ) (l : List ℤ) :
    parseTrain (0 :: d :: l) = TRec.time d :: parseTrain l := by
  conv_lhs => rw [parseTrain]
  all_goals intros
  all_goals omega

theorem parseTrain_onM (p : ℤ) (l : List ℤ) :
    parseTrain (10 :: p :: l) = TRec.on p.toNat true :: parseTrain l := by
  conv_lhs => rw [parseTrain]
  all_goals intros
  all_goals omega

theorem parseTrain_offM (p : ℤ) (l : List ℤ) :
    parseTrain (11 :: p :: l) = TRec.off p.toNat true :: parseTrain l := by
  conv_lhs => rw [parseTrain]
  all_goals intros
  all_goals omega

theorem parseTrain_onA (p : ℤ) (l : List ℤ) :
    parseTrain (20 :: p :: l) = TRec.on p.toNat false :: parseTrain l := by
  conv_lhs => rw [parseTrain]
  all_goals intros
  all_goals omega

theorem parseTrain_offA (p : ℤ) (l : List ℤ) :
    parseTrain (21 :: p :: l) = TRec.off p.toNat false :: parseTrain l := by
  conv_lhs => rw [parseTrain]
  all_goals intros
  all_goals omega

theorem parseTrain_eos : parseTrain [3] = [] := by
  conv_lhs => rw [parseTrain]
  all_goals intros
  all_goals omega

theorem parseTrain_flatten (trecs : List TRec) :
    parseTrain ((trecs.flatMap trainOfRec) ++ [3]) = trecs := by
  induction trecs with
  | nil => simpa using parseTrain_eos
  | cons r rest ih =>
      rcases r with d | ⟨p, m⟩ | ⟨p, m⟩
      · rw [List.flatMap_cons]
        simp only [trainOfRec, List.cons_append, List.nil_append]
        rw [parseTrain_time, ih]
      · cases m <;>
          · rw [List.flatMap_cons]
            simp only [trainOfRec, List.cons_append, List.nil_append]
            first
              | rw [parseTrain_onM, ih]
              | rw [parseTrain_onA, ih]
            simp
      · cases m <;>
          · rw [List.flatMap_cons]
            simp only [trainOfRec, List.cons_append, List.nil_append]
            first
              | rw [parseTrain_offM, ih]
              | rw [parseTrain_offA, ih]
            simp

/-- Step equations of the SEP scanner. -/
theorem dropToSep_bos (l : List ℤ) : dropToSep (1 :: l) = dropToSep l := by
  rw [dropToSep]
  all_goals intros
  all_goals omega

theorem dropToSep_sep (l : List ℤ) : dropToSep (2 :: l) = l := by
  conv_lhs => rw [dropToSep]
  all_goals intros
  all_goals omega

theorem dropToSep_time (d : ℤ) (l : List ℤ) :
    dropToSep (0 :: d :: l) = dropToSep l := by
  conv_lhs => rw [dropToSep]
  all_goals intros
  all_goals omega

theorem dropToSep_onM (p : ℤ) (l : List ℤ) :
    dropToSep (10 :: p :: l) = dropToSep l := by
  conv_lhs => rw [dropToSep]
  all_goals intros
  all_goals omega

theorem dropToSep_offM (p : ℤ) (l : List ℤ) :
    dropToSep (11 :: p :: l) = dropToSep l := by
  conv_lhs => rw [dropToSep]
  all_goals intros
  all_goals omega

theorem dropToSep_onA (p : ℤ) (l : List ℤ) :
    dropToSep (20 :: p :: l) = dropToSep l := by
  conv_lhs => rw [dropToSep]
  all_goals intros
  all_goals omega

theorem dropToSep_offA (p : ℤ) (l : List ℤ) :
    dropToSep (21 :: p :: l) = dropToSep l := by
  conv_lhs => rw [dropToSep]
  all_goals intros
  all_goals omega

theorem dropToSep_flatten (trecs : List TRec) (rest : List ℤ) :
    dropToSep ((trecs.flatMap trainOfRec) ++ 2 :: rest) = rest := by
  induction trecs with
  | nil => simpa using dropToSep_sep rest
  | cons r tl ih =>
      rcases r with d | ⟨p, m⟩ | ⟨p, m⟩
      · rw [List.flatMap_cons]
        simp only [trainOfRec, List.cons_append, List.nil_append]
        rw [dropToSep_time, ih]
      · cases m <;>
          · rw [List.flatMap_cons]
            simp only [trainOfRec, List.cons_append, List.nil_append]
            first
              | rw [dropToSep_onM, ih]
              | rw [dropToSep_onA, ih]
      · cases m <;>
          · rw [List.flatMap_cons]
            simp only [trainOfRec, List.cons_append, List.nil_append]
            first
              | rw [dropToSep_offM, ih]
              | rw [dropToSep_offA, ih]

/-- Step equations of the record decoder. -/
theorem decodeRecs_time (d : ℤ) (rest : List SRec) (t : ℤ)
    (opens : List ((ℕ × Bool) × ℤ × ℕ)) :
    decodeRecs (SRec.time d :: rest) t opens = decodeRecs rest (t + d) opens := rfl

theorem decodeRecs_on (p v : ℕ) (m : Bool) (rest : List SRec) (t : ℤ)
    (opens : List ((ℕ × Bool) × ℤ × ℕ)) :
    decodeRecs (SRec.on p v m :: rest) t opens
      = decodeRecs rest t (updateOpen opens (p, m) (t, v)) := rfl

theorem decodeRecs_off_some (p : ℕ) (m : Bool) (rest : List SRec) (t : ℤ)
    (opens : List ((ℕ × Bool) × ℤ × ℕ)) (sv : ℤ × ℕ)
    (h : findOpen opens (p, m) = some sv) :
    decodeRecs (SRec.off p m :: rest) t opens
      = ⟨sv.1, t, p, sv.2, m⟩ :: decodeRecs rest t (eraseOpen opens (p, m)) := by
  conv_lhs => rw [decodeRecs]
  rw [h]

theorem decodeRecs_off_none (p : ℕ) (m : Bool) (rest : List SRec) (t : ℤ)
    (opens : List ((ℕ × Bool) × ℤ × ℕ))
    (h : findOpen opens (p, m) = none) :
    decodeRecs (SRec.off p m :: rest) t opens = decodeRecs rest t opens := by
  conv_lhs => rw [decodeRecs]
  rw [h]

/-! ## Round trip, part 2: delta encoding and the absolute-event decoder -/

/-- Decoder over absolute-tick events: same state machine as `decodeRecs`,
with the running clock jumping to each event's tick (the third argument is
the clock value used for force-closing when no event remains). -/
def decodeEvents : List MidiEvent → ℤ → List ((ℕ × Bool) × ℤ × ℕ) → List RawNote
  | [], t, opens => closeAll opens t
  | e :: rest, _, opens =>
      if e.isOn then
        decodeEvents rest e.tick (updateOpen opens (e.pitch, e.melody) (e.tick, e.velocity))
      else
        match findOpen opens (e.pitch, e.melody) with
        | some sv => ⟨sv.1, e.tick, e.pitch, sv.2, e.melody⟩ ::
            decodeEvents rest e.tick (eraseOpen opens (e.pitch, e.melody))
        | none => decodeEvents rest e.tick opens

/-- The ticks of `evs` are nondecreasing and bounded below by `t`. -/
def TicksFrom : ℤ → List MidiEvent → Prop
  | _, [] => True
  | t, e :: rest => t ≤ e.tick ∧ TicksFrom e.tick rest

/-- Decoding the delta encoding of an absolute event list is decoding the
event list itself. -/
theorem decodeRecs_deltaEncode (evs : List MidiEvent) :
    ∀ (t : ℤ) (opens : List ((ℕ × Bool) × ℤ × ℕ)), TicksFrom t evs →
      decodeRecs (deltaEncode t evs) t opens = decodeEvents evs t opens := by
  induction evs with
  | nil => intro t opens _; rfl
  | cons e rest ih =>
      intro t opens ht
      obtain ⟨hle, ht'⟩ := ht
      have hstep : ∀ l : List SRec,
          decodeRecs ((if t < e.tick then [SRec.time (e.tick - t)] else []) ++ l) t opens
            = decodeRecs l e.tick opens := by
        intro l
        by_cases hlt : t < e.tick
        · rw [if_pos hlt, List.cons_append, List.nil_append, decodeRecs_time]
          have : t + (e.tick - t) = e.tick := by ring
          rw [this]
        · rw [if_neg hlt, List.nil_append, le_antisymm hle (not_lt.1 hlt)]
      rw [deltaEncode]
      by_cases hon : e.isOn
      · rw [if_pos hon, List.append_assoc, hstep, List.cons_append, List.nil_append,
          decodeRecs_on, ih e.tick _ ht']
        conv_rhs => rw [decodeEvents]
        rw [if_pos hon]
      · rw [if_neg hon, List.append_assoc, hstep, List.cons_append, List.nil_append]
        conv_rhs => rw [decodeEvents]
        rw [if_neg hon]
        cases hfind : findOpen opens (e.pitch, e.melody) with
        | some sv => rw [decodeRecs_off_some _ _ _ _ _ _ hfind, ih e.tick _ ht']
        | none => rw [decodeRecs_off_none _ _ _ _ _ hfind, ih e.tick _ ht']

/-- The decoder run without the final force-close: the emitted notes and the
final open table. -/
def runEvents : List MidiEvent → List ((ℕ × Bool) × ℤ × ℕ) →
    List RawNote × List ((ℕ × Bool) × ℤ × ℕ)
  | [], opens => ([], opens)
  | e :: rest, opens =>
      if e.isOn then
        runEvents rest (updateOpen opens (e.pitch, e.melody) (e.tick, e.velocity))
      else
        match findOpen opens (e.pitch, e.melody) with
        | some sv =>
            let p := runEvents rest (eraseOpen opens (e.pitch, e.melody))
            (⟨sv.1, e.tick, e.pitch, sv.2, e.melody⟩ :: p.1, p.2)
        | none => runEvents rest opens

/-- The clock value at the end of the event list. -/
def finalT : List MidiEvent → ℤ → ℤ
  | [], t => t
  | e :: rest, _ => finalT rest e.tick

/-- `decodeEvents` splits into the run part and the force-close of the final
open table at the final clock value. -/
theorem decodeEvents_split (evs : List MidiEvent) :
    ∀ (t : ℤ) (opens : List ((ℕ × Bool) × ℤ × ℕ)),
      decodeEvents evs t opens
        = (runEvents evs opens).1 ++ closeAll (runEvents evs opens).2 (finalT evs t) := by
  induction evs with
  | nil => intro t opens; rfl
  | cons e rest ih =>
      intro t opens
      rw [decodeEvents, runEvents, finalT]
      by_cases hon : e.isOn
      · rw [if_pos hon, if_pos hon, ih]
      · rw [if_neg hon, if_neg hon]
        cases hfind : findOpen opens (e.pitch, e.melody) with
        | some sv => simp only [ih, List.cons_append]
        | none => simp only [ih]

/-! ## Round trip, part 3: the run factors through each `(pitch, voice)` key -/

/-- Key of an event. -/
def kev (e : MidiEvent) : ℕ × Bool := (e.pitch, e.melody)

/-- Key of a decoded raw note. -/
def rkey (r : RawNote) : ℕ × Bool := (r.pitch, r.melody)

theorem runEvents_on (e : MidiEvent) (rest : List MidiEvent)
    (opens : List ((ℕ × Bool) × ℤ × ℕ)) (hon : e.isOn = true) :
    runEvents (e :: rest) opens
      = runEvents rest (updateOpen opens (e.pitch, e.melody) (e.tick, e.velocity)) := by
  rw [runEvents, if_pos hon]

theorem runEvents_off_some (e : MidiEvent) (rest : List MidiEvent)
    (opens : List ((ℕ × Bool) × ℤ × ℕ)) (sv : ℤ × ℕ) (hon : e.isOn = false)
    (hf : findOpen opens (e.pitch, e.melody) = some sv) :
    runEvents (e :: rest) opens
      = (⟨sv.1, e.tick, e.pitch, sv.2, e.melody⟩ ::
          (runEvents rest (eraseOpen opens (e.pitch, e.melody))).1,
        (runEvents rest (eraseOpen opens (e.pitch, e.melody))).2) := by
  rw [runEvents, if_neg (by simp [hon]), hf]

theorem runEvents_off_none (e : MidiEvent) (rest : List MidiEvent)
    (opens : List ((ℕ × Bool) × ℤ × ℕ)) (hon : e.isOn = false)
    (hf : findOpen opens (e.pitch, e.melody) = none) :
    runEvents (e :: rest) opens = runEvents rest opens := by
  rw [runEvents, if_neg (by simp [hon]), hf]

theorem findOpen_filter (opens : List ((ℕ × Bool) × ℤ × ℕ)) (k : ℕ × Bool) :
    findOpen (opens.filter fun o => decide (o.1 = k)) k = findOpen opens k := by
  induction opens with
  | nil => rfl
  | cons o rest ih =>
      by_cases ho : o.1 = k
      · rw [List.filter_cons_of_pos (by simpa using ho), findOpen, if_pos ho,
          findOpen, if_pos ho]
      · rw [List.filter_cons_of_neg (by simpa using ho), findOpen, if_neg ho]
        exact ih

theorem filter_eraseOpen_eq (opens : List ((ℕ × Bool) × ℤ × ℕ)) (k : ℕ × Bool) :
    (eraseOpen opens k).filter (fun o => decide (o.1 = k))
      = eraseOpen (opens.filter fun o => decide (o.1 = k)) k := by
  induction opens with
  | nil => rfl
  | cons o rest ih =>
      by_cases ho : o.1 = k
      · rw [eraseOpen, if_pos ho, List.filter_cons_of_pos (by simpa using ho),
          eraseOpen, if_pos ho]
      · rw [eraseOpen, if_neg ho, List.filter_cons_of_neg (by simpa using ho),
          List.filter_cons_of_neg (by simpa using ho)]
        exact ih

theorem filter_eraseOpen_ne (opens : List ((ℕ × Bool) × ℤ × ℕ)) (k k' : ℕ × Bool)
    (h : k' ≠ k) :
    (eraseOpen opens k').filter (fun o => decide (o.1 = k))
      = opens.filter (fun o => decide (o.1 = k)) := by
  induction opens with
  | nil => rfl
  | cons o rest ih =>
      by_cases ho : o.1 = k'
      · rw [eraseOpen, if_pos ho,
          List.filter_cons_of_neg (by simp [ho, h])]
      · rw [eraseOpen, if_neg ho]
        by_cases hok : o.1 = k
        · rw [List.filter_cons_of_pos (by simpa using hok),
            List.filter_cons_of_pos (by simpa using hok), ih]
        · rw [List.filter_cons_of_neg (by simpa using hok),
            List.filter_cons_of_neg (by simpa using hok)]
          exact ih

theorem filter_updateOpen_eq (opens : List ((ℕ × Bool) × ℤ × ℕ)) (k : ℕ × Bool)
    (v : ℤ × ℕ) :
    (updateOpen opens k v).filter (fun o => decide (o.1 = k))
      = updateOpen (opens.filter fun o => decide (o.1 = k)) k v := by
  unfold updateOpen
  rw [List.filter_append, filter_eraseOpen_eq]
  congr 1
  simp

theorem filter_updateOpen_ne (opens : List ((ℕ × Bool) × ℤ × ℕ)) (k k' : ℕ × Bool)
    (v : ℤ × ℕ) (h : k' ≠ k) :
    (updateOpen opens k' v).filter (fun o => decide (o.1 = k))
      = opens.filter (fun o => decide (o.1 = k)) := by
  unfold updateOpen
  rw [List.filter_append, filter_eraseOpen_ne _ _ _ h]
  simp [h]

/-- The decoder run restricted to one key is the run of that key's events on
that key's open entries. -/
theorem runEvents_filter (evs : List MidiEvent) :
    ∀ (opens : List ((ℕ × Bool) × ℤ × ℕ)) (k : ℕ × Bool),
      runEvents (evs.filter fun e => decide (kev e = k))
          (opens.filter fun o => decide (o.1 = k))
        = ((runEvents evs opens).1.filter fun r => decide (rkey r = k),
           (runEvents evs opens).2.filter fun o => decide (o.1 = k)) := by
  induction evs with
  | nil => intro opens k; rfl
  | cons e rest ih =>
      intro opens k
      by_cases hk : kev e = k
      · subst hk
        rw [List.filter_cons_of_pos (by simp)]
        by_cases hon : e.isOn
        · rw [runEvents_on _ _ _ hon, runEvents_on _ _ _ hon,
            show (e.pitch, e.melody) = kev e from rfl, ← filter_updateOpen_eq]
          exact ih _ _
        · have hon' : e.isOn = false := by simpa using hon
          cases hfind : findOpen opens (e.pitch, e.melody) with
          | some sv =>
              have hfind' : findOpen (opens.filter fun o => decide (o.1 = kev e))
                  (e.pitch, e.melody) = some sv := by
                rw [show (e.pitch, e.melody) = kev e from rfl] at hfind ⊢
                rw [findOpen_filter, hfind]
              rw [runEvents_off_some _ _ _ _ hon' hfind,
                runEvents_off_some _ _ _ _ hon' hfind',
                show (e.pitch, e.melody) = kev e from rfl,
                List.filter_cons_of_pos (by simp [rkey, kev]),
                ← filter_eraseOpen_eq, ih]
          | none =>
              have hfind' : findOpen (opens.filter fun o => decide (o.1 = kev e))
                  (e.pitch, e.melody) = none := by
                rw [show (e.pitch, e.melody) = kev e from rfl] at hfind ⊢
                rw [findOpen_filter, hfind]
              rw [runEvents_off_none _ _ _ hon' hfind,
                runEvents_off_none _ _ _ hon' hfind', ih]
      · rw [List.filter_cons_of_neg (by simpa using hk)]
        by_cases hon : e.isOn
        · rw [runEvents_on _ _ _ hon,
            show (e.pitch, e.melody) = kev e from rfl,
            ← filter_updateOpen_ne opens k (kev e) (e.tick, e.velocity) hk]
          exact ih _ _
        · have hon' : e.isOn = false := by simpa using hon
          cases hfind : findOpen opens (e.pitch, e.melody) with
          | some sv =>
              rw [runEvents_off_some _ _ _ _ hon' hfind,
                show (e.pitch, e.melody) = kev e from rfl,
                List.filter_cons_of_neg (by simpa [rkey, kev] using hk),
                ← filter_eraseOpen_ne opens k (kev e) hk, ih]
          | none => rw [runEvents_off_none _ _ _ hon' hfind, ih]

/-! ## Round trip, part 4: pairing recovers the notes of a single key -/

/-- Key (pitch, voice) of a note. -/
def nkey (n : Note) : ℕ × Bool := (n.pitch, n.is_melody)

/-- The tick-level image of a note under velocity assignment `V`. -/
def rawOf (V : Note → ℕ) (q : ℚ) (n : Note) : RawNote :=
  ⟨to_ticks n.start q, to_ticks n.end_ q, n.pitch, V n, n.is_melody⟩

/-- Strict event order: strictly earlier tick, or same tick with OFF
strictly before ON. -/
def eventLT (a b : MidiEvent) : Prop :=
  a.tick < b.tick ∨ (a.tick = b.tick ∧ a.isOn = false ∧ b.isOn = true)

theorem eventLT_not_le {a b : MidiEvent} (h : eventLT a b) : ¬ eventLE b a := by
  intro hle
  rcases h with h | ⟨h, ha, hb⟩ <;> rcases hle with h' | ⟨h', hq⟩ <;> try omega
  rw [ha, hb] at hq
  exact absurd hq (by decide)

/-- A sorted list whose member `a` is strictly below every other member
starts with `a`. -/
theorem sorted_head_eq (l : List MidiEvent) (a : MidiEvent)
    (hs : List.Pairwise eventLE l) (ha : a ∈ l)
    (hmin : ∀ b ∈ l, b ≠ a → eventLT a b) :
    ∃ tl, l = a :: tl := by
  cases l with
  | nil => cases ha
  | cons h t =>
      by_cases hha : h = a
      · exact ⟨t, by rw [hha]⟩
      · have hat : a ∈ t := by
          rcases List.mem_cons.1 ha with h1 | h1
          · exact absurd h1.symm hha
          · exact h1
        have hle : eventLE h a := (List.pairwise_cons.1 hs).1 a hat
        have hlt : eventLT a h := hmin h (List.mem_cons_self _ _) hha
        exact absurd hle (eventLT_not_le hlt)

/-- Every nonempty note list has a note of minimal quantized start. -/
theorem exists_min_start (q : ℚ) : ∀ (ns : List Note), ns ≠ [] →
    ∃ n₀ ∈ ns, ∀ m ∈ ns, to_ticks n₀.start q ≤ to_ticks m.start q := by
  intro ns
  induction ns with
  | nil => intro h; exact absurd rfl h
  | cons x xs ih =>
      intro _
      by_cases hxs : xs = []
      · subst hxs
        refine ⟨x, List.mem_cons_self _ _, ?_⟩
        intro m hm
        rcases List.mem_cons.1 hm with rfl | hm
        · exact le_refl _
        · cases hm
      · obtain ⟨n₀, hn₀, hmin⟩ := ih hxs
        by_cases hle : to_ticks x.start q ≤ to_ticks n₀.start q
        · refine ⟨x, List.mem_cons_self _ _, ?_⟩
          intro m hm
          rcases List.mem_cons.1 hm with rfl | hm
          · exact le_refl _
          · exact le_trans hle (hmin m hm)
        · refine ⟨n₀, List.mem_cons_of_mem _ hn₀, ?_⟩
          intro m hm
          rcases List.mem_cons.1 hm with rfl | hm
          · exact le_of_lt (not_le.1 hle)
          · exact hmin m hm

/-- Pairing correctness for a single key: if every note of `ns` has key `k`,
the notes have positive quantized length and pairwise disjoint quantized
intervals, then running the decoder over any sorted arrangement of their
events recovers exactly the notes (as raw tick-level notes) and leaves no
open entry. -/
theorem runEvents_single_key (V : Note → ℕ) (q : ℚ) (k : ℕ × Bool) :
    ∀ (N : ℕ) (ns : List Note) (evs : List MidiEvent), ns.length ≤ N →
      (∀ n ∈ ns, nkey n = k) →
      (∀ n ∈ ns, to_ticks n.start q < to_ticks n.end_ q) →
      List.Pairwise (fun a b => to_ticks a.end_ q ≤ to_ticks b.start q ∨
        to_ticks b.end_ q ≤ to_ticks a.start q) ns →
      List.Pairwise eventLE evs →
      evs.Perm (ns.flatMap (noteEvents V q)) →
      (runEvents evs []).1.Perm (ns.map (rawOf V q)) ∧ (runEvents evs []).2 = [] := by
  intro N
  induction N with
  | zero =>
      intro ns evs hlen _ _ _ _ hperm
      have hns : ns = [] := List.eq_nil_of_length_eq_zero (Nat.le_zero.1 hlen)
      subst hns
      have hevs : evs = [] := by simpa using hperm.eq_nil
      subst hevs
      exact ⟨List.Perm.refl _, rfl⟩
  | succ N ihN =>
      intro ns evs hlen hkey hpos hdisj hsort hperm
      by_cases hnil : ns = []
      · subst hnil
        have hevs : evs = [] := by simpa using hperm.eq_nil
        subst hevs
        exact ⟨List.Perm.refl _, rfl⟩
      · -- pick the note with the earliest quantized start
        obtain ⟨n₀, hmem, hminle⟩ := exists_min_start q ns hnil
        have hperm_ns : ns.Perm (n₀ :: ns.erase n₀) := List.perm_cons_erase hmem
        have hdisj' := (hperm_ns.pairwise_iff fun h => h.symm).1 hdisj
        obtain ⟨hdisj₀, hdisjrest⟩ := List.pairwise_cons.1 hdisj'
        have hsub : ∀ m ∈ ns.erase n₀, m ∈ ns := fun m hm => List.erase_subset _ _ hm
        have hstrict : ∀ m ∈ ns.erase n₀,
            to_ticks n₀.start q < to_ticks m.start q := by
          intro m hm
          rcases lt_or_eq_of_le (hminle m (hsub m hm)) with h | h
          · exact h
          · exfalso
            have h1 := hpos n₀ hmem
            have h2 := hpos m (hsub m hm)
            rcases hdisj₀ m hm with hd | hd <;> omega
        -- the two events of n₀
        have hperm2 : evs.Perm
            (⟨to_ticks n₀.start q, true, n₀.pitch, V n₀, n₀.is_melody⟩ ::
             ⟨to_ticks n₀.end_ q, false, n₀.pitch, 0, n₀.is_melody⟩ ::
             (ns.erase n₀).flatMap (noteEvents V q)) := by
          refine hperm.trans ?_
          refine (hperm_ns.flatMap_right (noteEvents V q)).trans ?_
          rw [List.flatMap_cons]
          exact List.Perm.refl _
        have hmemchar : ∀ b ∈ evs,
            b = ⟨to_ticks n₀.start q, true, n₀.pitch, V n₀, n₀.is_melody⟩ ∨
            b = ⟨to_ticks n₀.end_ q, false, n₀.pitch, 0, n₀.is_melody⟩ ∨
            ∃ m ∈ ns.erase n₀,
              b = ⟨to_ticks m.start q, true, m.pitch, V m, m.is_melody⟩ ∨
              b = ⟨to_ticks m.end_ q, false, m.pitch, 0, m.is_melody⟩ := by
          intro b hb
          have := hperm2.mem_iff.1 hb
          rcases List.mem_cons.1 this with h | h
          · exact Or.inl h
          rcases List.mem_cons.1 h with h | h
          · exact Or.inr (Or.inl h)
          obtain ⟨m, hm, hbm⟩ := List.mem_flatMap.1 h
          rcases List.mem_cons.1 hbm with h' | h'
          · exact Or.inr (Or.inr ⟨m, hm, Or.inl h'⟩)
          · rcases List.mem_cons.1 h' with h'' | h''
            · exact Or.inr (Or.inr ⟨m, hm, Or.inr h''⟩)
            · cases h''
        -- the ON of n₀ is the strict minimum
        have hminON : ∀ b ∈ evs,
            b ≠ ⟨to_ticks n₀.start q, true, n₀.pitch, V n₀, n₀.is_melody⟩ →
            eventLT ⟨to_ticks n₀.start q, true, n₀.pitch, V n₀, n₀.is_melody⟩ b := by
          intro b hb hne
          rcases hmemchar b hb with h | h | ⟨m, hm, h | h⟩
          · exact absurd h hne
          · subst h
            exact Or.inl (hpos n₀ hmem)
          · subst h
            exact Or.inl (hstrict m hm)
          · subst h
            have := hpos m (hsub m hm)
            have := hstrict m hm
            exact Or.inl (by dsimp only; omega)
        obtain ⟨tl, htl⟩ := sorted_head_eq evs _ hsort
          (hperm2.mem_iff.2 (List.mem_cons_self _ _)) hminON
        subst htl
        have hsort_tl : List.Pairwise eventLE tl := (List.pairwise_cons.1 hsort).2
        have hperm_tl : tl.Perm
            (⟨to_ticks n₀.end_ q, false, n₀.pitch, 0, n₀.is_melody⟩ ::
             (ns.erase n₀).flatMap (noteEvents V q)) := hperm2.cons_inv
        have hminOFF : ∀ b ∈ tl,
            b ≠ ⟨to_ticks n₀.end_ q, false, n₀.pitch, 0, n₀.is_melody⟩ →
            eventLT ⟨to_ticks n₀.end_ q, false, n₀.pitch, 0, n₀.is_melody⟩ b := by
          intro b hb hne
          have hbm := hperm_tl.mem_iff.1 hb
          rcases List.mem_cons.1 hbm with h | h
          · exact absurd h hne
          obtain ⟨m, hm, hbm'⟩ := List.mem_flatMap.1 h
          have h1 := hpos n₀ hmem
          have h2 := hpos m (hsub m hm)
          have h3 := hstrict m hm
          have hd : to_ticks n₀.end_ q ≤ to_ticks m.start q := by
            rcases hdisj₀ m hm with hd | hd
            · exact hd
            · omega
          rcases List.mem_cons.1 hbm' with h' | h'
          · subst h'
            rcases lt_or_eq_of_le hd with hlt | heq
            · exact Or.inl hlt
            · exact Or.inr ⟨heq, rfl, rfl⟩
          · rcases List.mem_cons.1 h' with h'' | h''
            · subst h''
              exact Or.inl (by dsimp only; omega)
            · cases h''
        obtain ⟨tl', htl'⟩ := sorted_head_eq tl _ hsort_tl
          (hperm_tl.mem_iff.2 (List.mem_cons_self _ _)) hminOFF
        subst htl'
        have hperm_tl' : tl'.Perm ((ns.erase n₀).flatMap (noteEvents V q)) :=
          hperm_tl.cons_inv
        have hsort_tl' : List.Pairwise eventLE tl' := (List.pairwise_cons.1 hsort_tl).2
        -- the decoder consumes the two events of n₀ and emits it
        have hrun : runEvents
            (⟨to_ticks n₀.start q, true, n₀.pitch, V n₀, n₀.is_melody⟩ ::
             ⟨to_ticks n₀.end_ q, false, n₀.pitch, 0, n₀.is_melody⟩ :: tl') []
            = (rawOf V q n₀ :: (runEvents tl' []).1, (runEvents tl' []).2) := by
          rw [runEvents_on _ _ _ rfl]
          have hfind : findOpen (updateOpen [] (n₀.pitch, n₀.is_melody)
              (to_ticks n₀.start q, V n₀)) (n₀.pitch, n₀.is_melody)
              = some (to_ticks n₀.start q, V n₀) := by
            simp [updateOpen, eraseOpen, findOpen]
          rw [runEvents_off_some _ _ _ _ rfl hfind]
          have herase : eraseOpen (updateOpen [] (n₀.pitch, n₀.is_melody)
              (to_ticks n₀.start q, V n₀)) (n₀.pitch, n₀.is_melody) = [] := by
            simp [updateOpen, eraseOpen]
          rw [herase]
          rfl
        have hih := ihN (ns.erase n₀) tl'
          (by
            have := List.length_erase_of_mem hmem
            omega)
          (fun m hm => hkey m (hsub m hm))
          (fun m hm => hpos m (hsub m hm))
          hdisjrest hsort_tl' hperm_tl'
        constructor
        · rw [hrun]
          refine List.Perm.trans (List.Perm.cons _ hih.1) ?_
          refine List.Perm.trans ?_ ((hperm_ns.map (rawOf V q)).symm)
          rw [List.map_cons]
        · rw [hrun]
          exact hih.2

/-! ## Round trip, part 5: assembling the full decoder correctness -/

theorem ticksFrom_of_sorted (evs : List MidiEvent) :
    ∀ t, List.Pairwise eventLE evs → (∀ e ∈ evs, t ≤ e.tick) → TicksFrom t evs := by
  induction evs with
  | nil => intro t _ _; trivial
  | cons e rest ih =>
      intro t hs hle
      refine ⟨hle e (List.mem_cons_self _ _), ih e.tick (List.pairwise_cons.1 hs).2 ?_⟩
      intro e' he'
      rcases (List.pairwise_cons.1 hs).1 e' he' with h | ⟨h, _⟩
      · exact le_of_lt h
      · exact le_of_eq h

theorem kev_mem_noteEvents {V : Note → ℕ} {q : ℚ} {n : Note} {e : MidiEvent}
    (he : e ∈ noteEvents V q n) : kev e = nkey n := by
  rcases List.mem_cons.1 he with rfl | he
  · rfl
  · rcases List.mem_cons.1 he with rfl | he
    · rfl
    · cases he

theorem filter_flatMap_noteEvents (V : Note → ℕ) (q : ℚ) (k : ℕ × Bool)
    (ns : List Note) :
    (ns.flatMap (noteEvents V q)).filter (fun e => decide (kev e = k))
      = (ns.filter fun n => decide (nkey n = k)).flatMap (noteEvents V q) := by
  induction ns with
  | nil => rfl
  | cons n rest ih =>
      rw [List.flatMap_cons, List.filter_append, ih]
      by_cases hk : nkey n = k
      · have h1 : (noteEvents V q n).filter (fun e => decide (kev e = k))
            = noteEvents V q n :=
          List.filter_eq_self.2 fun e he => by
            simp [kev_mem_noteEvents he, hk]
        rw [h1, List.filter_cons_of_pos (by simpa using hk), List.flatMap_cons]
      · have h1 : (noteEvents V q n).filter (fun e => decide (kev e = k)) = [] :=
          List.filter_eq_nil_iff.2 fun e he => by
            simp [kev_mem_noteEvents he, hk]
        rw [h1, List.nil_append, List.filter_cons_of_neg (by simpa using hk)]

/-- Full decoder correctness at event level: decoding any sorted arrangement
of the events of a good note list yields exactly the notes, as a
permutation of tick-level raw notes. -/
theorem decodeEvents_perm (V : Note → ℕ) (q : ℚ) (notes : List Note)
    (evs : List MidiEvent) (t : ℤ)
    (hsort : List.Pairwise eventLE evs)
    (hperm : evs.Perm (notes.flatMap (noteEvents V q)))
    (hpos : ∀ n ∈ notes, to_ticks n.start q < to_ticks n.end_ q)
    (hdisj : List.Pairwise (fun a b => nkey a = nkey b →
        to_ticks a.end_ q ≤ to_ticks b.start q ∨
        to_ticks b.end_ q ≤ to_ticks a.start q) notes) :
    (decodeEvents evs t []).Perm (notes.map (rawOf V q)) := by
  have hkeyrun : ∀ k : ℕ × Bool,
      ((runEvents evs []).1.filter fun r => decide (rkey r = k)).Perm
        ((notes.filter fun n => decide (nkey n = k)).map (rawOf V q))
      ∧ ((runEvents evs []).2.filter fun o => decide (o.1 = k)) = [] := by
    intro k
    have hfac := runEvents_filter evs [] k
    have hfk : (List.filter (fun o => decide (o.1 = k)) []) = ([] : List ((ℕ × Bool) × ℤ × ℕ)) := rfl
    rw [hfk] at hfac
    have hkey : ∀ n ∈ notes.filter fun n => decide (nkey n = k), nkey n = k := by
      intro n hn
      simpa using (List.mem_filter.1 hn).2
    have hsub : ∀ n ∈ notes.filter fun n => decide (nkey n = k), n ∈ notes :=
      fun n hn => (List.mem_filter.1 hn).1
    have hdisj' : List.Pairwise (fun a b =>
        to_ticks a.end_ q ≤ to_ticks b.start q ∨
        to_ticks b.end_ q ≤ to_ticks a.start q)
        (notes.filter fun n => decide (nkey n = k)) := by
      refine (hdisj.filter _).imp_of_mem ?_
      intro a b ha hb h
      exact h ((hkey a ha).trans (hkey b hb).symm)
    have hperm' : (evs.filter fun e => decide (kev e = k)).Perm
        ((notes.filter fun n => decide (nkey n = k)).flatMap (noteEvents V q)) := by
      refine (hperm.filter _).trans ?_
      rw [filter_flatMap_noteEvents]
    have := runEvents_single_key V q k
      (notes.filter fun n => decide (nkey n = k)).length
      (notes.filter fun n => decide (nkey n = k))
      (evs.filter fun e => decide (kev e = k))
      le_rfl hkey (fun n hn => hpos n (hsub n hn)) hdisj'
      (hsort.filter _) hperm'
    rw [hfac] at this
    exact this
  have hfin : (runEvents evs []).2 = [] := by
    rw [List.eq_nil_iff_forall_not_mem]
    intro o ho
    have h1 : o ∈ (runEvents evs []).2.filter fun x => decide (x.1 = o.1) :=
      List.mem_filter.2 ⟨ho, by simp⟩
    rw [(hkeyrun o.1).2] at h1
    cases h1
  have hsplit := decodeEvents_split evs t []
  rw [hfin] at hsplit
  have hclose : closeAll [] (finalT evs t) = [] := rfl
  rw [hclose, List.append_nil] at hsplit
  rw [hsplit]
  rw [List.perm_iff_count]
  intro r
  have h1 : (runEvents evs []).1.count r
      = ((runEvents evs []).1.filter fun x => decide (rkey x = rkey r)).count r := by
    rw [List.count_filter (by simp)]
  have h2 : (notes.map (rawOf V q)).count r
      = ((notes.map (rawOf V q)).filter fun x => decide (rkey x = rkey r)).count r := by
    rw [List.count_filter (by simp)]
  rw [h1, h2, ((hkeyrun (rkey r)).1).count_eq r, List.filter_map]
  have hcomp : ((fun x => decide (rkey x = rkey r)) ∘ rawOf V q)
      = fun n => decide (nkey n = rkey r) := rfl
  rw [hcomp]

/-- Quantization is a left inverse of inverse quantization (the quantized
grid is a fixed point). -/
theorem to_ticks_to_seconds (t : ℤ) (q : ℚ) (hq : 0 < q) :
    to_ticks (to_seconds t q) q = t := by
  unfold to_ticks to_seconds
  have hq' : q ≠ 0 := ne_of_gt hq
  have : (t : ℚ) * q / 1000 * 1000 / q = (t : ℚ) := by
    field_simp
  rw [this, round_intCast]

/-- The quantized view of a note: quantized start and end tick, pitch,
velocity, voice. -/
def tickView (q : ℚ) (n : Note) : ℤ × ℤ × ℕ × ℕ × Bool :=
  (to_ticks n.start q, to_ticks n.end_ q, n.pitch, n.velocity, n.is_melody)

/-- Core decoder correctness at record level, for any sorted arrangement of
the note events. -/
theorem roundtrip_core (V : Note → ℕ) (q : ℚ) (notes : List Note)
    (evs : List MidiEvent)
    (hsort : List.Pairwise eventLE evs)
    (hperm : evs.Perm (notes.flatMap (noteEvents V q)))
    (h0 : ∀ n ∈ notes, 0 ≤ to_ticks n.start q)
    (hpos : ∀ n ∈ notes, to_ticks n.start q < to_ticks n.end_ q)
    (hdisj : List.Pairwise (fun a b => nkey a = nkey b →
        to_ticks a.end_ q ≤ to_ticks b.start q ∨
        to_ticks b.end_ q ≤ to_ticks a.start q) notes) :
    (decodeRecs (deltaEncode 0 evs) 0 []).Perm (notes.map (rawOf V q)) := by
  have hnn : ∀ e ∈ evs, 0 ≤ e.tick := by
    intro e he
    obtain ⟨n, hn, hen⟩ := List.mem_flatMap.1 (hperm.mem_iff.1 he)
    have h1 := h0 n hn
    have h2 := hpos n hn
    rcases List.mem_cons.1 hen with rfl | hen
    · exact h1
    · rcases List.mem_cons.1 hen with rfl | hen
      · dsimp only
        omega
      · cases hen
  rw [decodeRecs_deltaEncode evs 0 [] (ticksFrom_of_sorted evs 0 hsort hnn)]
  exact decodeEvents_perm V q notes evs 0 hsort hperm hpos hdisj

theorem decoded_map_tickView (q : ℚ) (hq : 0 < q) (rs : List RawNote) :
    (rs.map (rawToNote q)).map (tickView q)
      = rs.map fun r => (r.onTick, r.offTick, r.pitch, r.velocity, r.melody) := by
  rw [List.map_map]
  refine List.map_congr_left ?_
  intro r _
  simp only [Function.comp, tickView, rawToNote]
  rw [to_ticks_to_seconds _ _ hq, to_ticks_to_seconds _ _ hq]

/-- Velocity erasure on a flat record (what a record loses through the
training coding and its default-velocity reconstruction). -/
def svel80Rec : SRec → SRec
  | SRec.time d => SRec.time d
  | SRec.on p _ m => SRec.on p DEFAULT_VELOCITY m
  | SRec.off p m => SRec.off p m

theorem trecToSrec_srecToTrec (r : SRec) : trecToSrec (srecToTrec r) = svel80Rec r := by
  rcases r with d | ⟨p, v, m⟩ | ⟨p, m⟩ <;> rfl

/-- Velocity erasure on an event. -/
def evVel80 (e : MidiEvent) : MidiEvent :=
  if e.isOn then { e with velocity := DEFAULT_VELOCITY } else e

theorem evVel80_tick (e : MidiEvent) : (evVel80 e).tick = e.tick := by
  unfold evVel80
  split <;> rfl

theorem evVel80_isOn (e : MidiEvent) : (evVel80 e).isOn = e.isOn := by
  unfold evVel80
  split <;> rfl

theorem map_svel80_deltaEncode : ∀ (t : ℤ) (evs : List MidiEvent),
    (deltaEncode t evs).map svel80Rec = deltaEncode t (evs.map evVel80)
  | _, [] => rfl
  | t, e :: rest => by
      rw [deltaEncode, List.map_cons, deltaEncode, evVel80_tick, evVel80_isOn,
        List.map_append, List.map_append, map_svel80_deltaEncode e.tick rest]
      congr 1
      congr 1
      · split <;> rfl
      · by_cases hon : e.isOn
        · rw [if_pos hon, if_pos hon]
          unfold evVel80
          rw [if_pos hon]
          rfl
        · rw [if_neg hon, if_neg hon]
          unfold evVel80
          rw [if_neg hon]
          rfl

theorem map_evVel80_flatMap (V : Note → ℕ) (q : ℚ) (ns : List Note) :
    (ns.flatMap (noteEvents V q)).map evVel80
      = ns.flatMap (noteEvents (fun _ => DEFAULT_VELOCITY) q) := by
  induction ns with
  | nil => rfl
  | cons n rest ih =>
      rw [List.flatMap_cons, List.flatMap_cons, List.map_append, ih]
      rfl

theorem eventLE_evVel80 {a b : MidiEvent} (h : eventLE a b) :
    eventLE (evVel80 a) (evVel80 b) := by
  unfold eventLE at h ⊢
  rw [evVel80_tick, evVel80_tick, evVel80_isOn, evVel80_isOn]
  exact h

/-- C1 (amended): for every quantization step `q > 0` and every note list
whose notes have nonnegative quantized starts, positive quantized durations,
and pairwise disjoint quantized intervals on any shared `(pitch, voice)`
key, encoding and then decoding is the identity on the quantized view:
the decoded list is a permutation of the original at the level of
`(quantized start, quantized end, pitch, velocity, voice)` — in particular
quantized starts and ends match exactly (within one tick), and pitch, voice
and velocity match exactly — for the simple and compound codings, while the
training coding (decoded through the Target segment) yields the fixed
default velocity 80 for every note. -/
theorem tokenize_roundtrip (q : ℚ) (notes : List Note)
    (hq : 0 < q)
    (h0 : ∀ n ∈ notes, 0 ≤ to_ticks n.start q)
    (hpos : ∀ n ∈ notes, to_ticks n.start q < to_ticks n.end_ q)
    (hdisj : List.Pairwise (fun a b => nkey a = nkey b →
        to_ticks a.end_ q ≤ to_ticks b.start q ∨
        to_ticks b.end_ q ≤ to_ticks a.start q) notes) :
    ((tokens_to_notes_simple (notes_to_simple q notes) q).map (tickView q)).Perm
        (notes.map (tickView q))
    ∧ ((tokens_to_notes_compound (notes_to_compound q notes) q).map (tickView q)).Perm
        (notes.map (tickView q))
    ∧ ((tokens_to_notes_target_only (training_sequence q notes) q).map (tickView q)).Perm
        (notes.map fun n => (to_ticks n.start q, to_ticks n.end_ q, n.pitch,
          DEFAULT_VELOCITY, n.is_melody)) := by
  have hsort : List.Pairwise eventLE (notesToEvents Note.velocity q notes) :=
    List.sorted_insertionSort eventLE _
  have hperm : (notesToEvents Note.velocity q notes).Perm
      (notes.flatMap (noteEvents Note.velocity q)) :=
    List.perm_insertionSort eventLE _
  have hcore := roundtrip_core Note.velocity q notes
    (notesToEvents Note.velocity q notes) hsort hperm h0 hpos hdisj
  have heq : (notes.map (rawOf Note.velocity q)).map
      (fun r : RawNote => (r.onTick, r.offTick, r.pitch, r.velocity, r.melody))
      = notes.map (tickView q) := by
    rw [List.map_map]
    rfl
  refine ⟨?_, ?_, ?_⟩
  · unfold tokens_to_notes_simple notes_to_simple
    rw [parseSimple_flatten, decoded_map_tickView q hq]
    have := hcore.map
      (fun r : RawNote => (r.onTick, r.offTick, r.pitch, r.velocity, r.melody))
    rw [heq] at this
    exact this
  · unfold tokens_to_notes_compound notes_to_compound
    rw [map_recOfCompound_map_compoundOfRec, decoded_map_tickView q hq]
    have := hcore.map
      (fun r : RawNote => (r.onTick, r.offTick, r.pitch, r.velocity, r.melody))
    rw [heq] at this
    exact this
  · unfold tokens_to_notes_target_only
    have hseq : training_sequence q notes
        = 1 :: (((deltaEncode 0 (notesToEvents Note.velocity q
              (notes.filter Note.is_melody))).map srecToTrec).flatMap trainOfRec
            ++ 2 :: (((deltaEncode 0 (notesToEvents Note.velocity q notes)).map
              srecToTrec).flatMap trainOfRec ++ [3])) := by
      unfold training_sequence
      simp
    rw [hseq, dropToSep_bos, dropToSep_flatten]
    unfold tokens_to_notes
    rw [parseTrain_flatten]
    have hcompose : (trecToSrec ∘ srecToTrec) = svel80Rec := funext trecToSrec_srecToTrec
    have hmm : List.map trecToSrec (List.map srecToTrec
          (deltaEncode 0 (notesToEvents Note.velocity q notes)))
        = List.map svel80Rec (deltaEncode 0 (notesToEvents Note.velocity q notes)) := by
      rw [List.map_map, hcompose]
    rw [hmm, map_svel80_deltaEncode]
    have hsort' : List.Pairwise eventLE
        ((notesToEvents Note.velocity q notes).map evVel80) :=
      hsort.map _ fun _ _ hab => eventLE_evVel80 hab
    have hperm' : ((notesToEvents Note.velocity q notes).map evVel80).Perm
        (notes.flatMap (noteEvents (fun _ => DEFAULT_VELOCITY) q)) := by
      refine (hperm.map evVel80).trans ?_
      rw [map_evVel80_flatMap]
    have hcore80 := roundtrip_core (fun _ => DEFAULT_VELOCITY) q notes _
      hsort' hperm' h0 hpos hdisj
    rw [decoded_map_tickView q hq]
    have heq80 : (notes.map (rawOf (fun _ => DEFAULT_VELOCITY) q)).map
        (fun r : RawNote => (r.onTick, r.offTick, r.pitch, r.velocity, r.melody))
        = notes.map (fun n => (to_ticks n.start q, to_ticks n.end_ q, n.pitch,
            DEFAULT_VELOCITY, n.is_melody)) := by
      rw [List.map_map]
      rfl
    have := hcore80.map
      (fun r : RawNote => (r.onTick, r.offTick, r.pitch, r.velocity, r.melody))
    rw [heq80] at this
    exact this

unseal Rat.add Rat.mul Rat.inv Rat.sub in
/-- Witness for `tokenize_roundtrip`: two disjoint notes (a melody note at
0–0.4 s, pitch 60, velocity 80, and an accompaniment note at 1–1.5 s,
pitch 48, velocity 70) with `q = 100` satisfy the hypotheses, and all three
round trips reproduce the quantized views. -/
theorem tokenize_roundtrip_witness :
    (0 : ℚ) < 100 ∧
    (((tokens_to_notes_simple
        (notes_to_simple 100 [⟨0, 0, 2/5, 60, 80, true⟩, ⟨1, 1, 3/2, 48, 70, false⟩])
        100).map (tickView 100)).Perm
      (([⟨0, 0, 2/5, 60, 80, true⟩, ⟨1, 1, 3/2, 48, 70, false⟩] : List Note).map
        (tickView 100))
    ∧ ((tokens_to_notes_compound
        (notes_to_compound 100 [⟨0, 0, 2/5, 60, 80, true⟩, ⟨1, 1, 3/2, 48, 70, false⟩])
        100).map (tickView 100)).Perm
      (([⟨0, 0, 2/5, 60, 80, true⟩, ⟨1, 1, 3/2, 48, 70, false⟩] : List Note).map
        (tickView 100))
    ∧ ((tokens_to_notes_target_only
        (training_sequence 100 [⟨0, 0, 2/5, 60, 80, true⟩, ⟨1, 1, 3/2, 48, 70, false⟩])
        100).map (tickView 100)).Perm
      (([⟨0, 0, 2/5, 60, 80, true⟩, ⟨1, 1, 3/2, 48, 70, false⟩] : List Note).map
        fun n => (to_ticks n.start 100, to_ticks n.end_ 100, n.pitch,
          DEFAULT_VELOCITY, n.is_melody))) :=
  ⟨by norm_num,
   tokenize_roundtrip 100 [⟨0, 0, 2/5, 60, 80, true⟩, ⟨1, 1, 3/2, 48, 70, false⟩]
     (by norm_num) (by decide) (by decide) (by decide)⟩

unseal Rat.add Rat.mul Rat.inv Rat.sub in
/-- C8: for every well-formed training sequence
`[BOS] ++ Source ++ [SEP] ++ Target ++ [EOS]` (the Source and Target
segments being flattened record streams), `tokens_to_notes_target_only`
decodes exactly the Target segment — its output equals `tokens_to_notes`
run on `Target ++ [EOS]` alone, independent of the Source — whereas the
full decoder on the documented test sequence (one Source note, two Target
notes) decodes both segments in order, producing 3 notes, while the
target-only decoder produces the 2 Target notes. -/
theorem target_only_decodes_target (Srecs Trecs : List TRec) (q : ℚ) :
    tokens_to_notes_target_only
        ([1] ++ Srecs.flatMap trainOfRec ++ [2] ++ Trecs.flatMap trainOfRec ++ [3]) q
      = tokens_to_notes (Trecs.flatMap trainOfRec ++ [3]) q
    ∧ (tokens_to_notes
        [1, 10, 60, 0, 4, 11, 60, 2, 10, 60, 20, 48, 0, 4, 11, 60, 21, 48, 3]
        100).length = 3
    ∧ (tokens_to_notes_target_only
        [1, 10, 60, 0, 4, 11, 60, 2, 10, 60, 20, 48, 0, 4, 11, 60, 21, 48, 3]
        100).length = 2 := by
  refine ⟨?_, by decide, by decide⟩
  unfold tokens_to_notes_target_only
  have hshape : [1] ++ Srecs.flatMap trainOfRec ++ [2] ++ Trecs.flatMap trainOfRec ++ [3]
      = 1 :: (Srecs.flatMap trainOfRec ++ 2 :: (Trecs.flatMap trainOfRec ++ [3])) := by
    simp
  rw [hshape, dropToSep_bos, dropToSep_flatten]

unseal Rat.add Rat.mul Rat.inv Rat.sub in
/-- Witness for `target_only_decodes_target`: with a one-record Source and a
one-record Target the target-only decode equals the Target-segment decode,
and the concrete README example decodes to 3 notes (full) and 2 notes
(target-only). -/
theorem target_only_decodes_target_witness :
    tokens_to_notes_target_only
        ([1] ++ [TRec.on 60 true].flatMap trainOfRec ++ [2]
          ++ [TRec.on 48 false].flatMap trainOfRec ++ [3]) 100
      = tokens_to_notes ([TRec.on 48 false].flatMap trainOfRec ++ [3]) 100
    ∧ (tokens_to_notes
        [1, 10, 60, 0, 4, 11, 60, 2, 10, 60, 20, 48, 0, 4, 11, 60, 21, 48, 3]
        100).length = 3
    ∧ (tokens_to_notes_target_only
        [1, 10, 60, 0, 4, 11, 60, 2, 10, 60, 20, 48, 0, 4, 11, 60, 21, 48, 3]
        100).length = 2 :=
  target_only_decodes_target [TRec.on 60 true] [TRec.on 48 false] 100
